import Mathlib

/-!
# MemoryPool: a shallow embedding of `C-11/MemoryPool.tcc`

Addresses are natural numbers (`0` is `nullptr`), memory is a map from byte
addresses to byte values, and pointers are stored as eight little-endian bytes.
The template parameters `BlockSize`, `sizeof(slot_type_)` and
`alignof(slot_type_)` are the fields of `Config`.  The memory source
(`operator new`) is an oracle `src : Nat → Option Nat` giving the answer to the
`k`-th request (`none` is `std::bad_alloc`).
-/

namespace MemoryPool

/-- Template parameters: `BlockSize`, `sizeof(slot_type_)`, `alignof(slot_type_)`. -/
structure Config where
  BlockSize : Nat
  slotSize : Nat
  slotAlign : Nat

/-- Value of `sizeof(slot_pointer_)`: the back-link and the free-list link are one 64-bit word. -/
def ptrSize : Nat := 8

/-- Number of values of `uintptr_t` / `size_type` (unsigned 64-bit). -/
def wordMod : Nat := 2 ^ 64

/-- Byte-addressed memory. -/
abbrev Memory := Nat → Nat

/-- Little-endian value of the `n` bytes starting at `p`. -/
def readBytes (m : Memory) : Nat → Nat → Nat
  | _, 0 => 0
  | p, n + 1 => m p % 256 + 256 * readBytes m (p + 1) n

/-- Load of a pointer-sized word (`q->next` as an rvalue). -/
@[irreducible] def readPtr (m : Memory) (p : Nat) : Nat := readBytes m p ptrSize

/-- Store of a pointer-sized word (`q->next = v`): bytes `p .. p+7` change, nothing else. -/
@[irreducible] def writePtr (m : Memory) (p v : Nat) : Memory :=
  fun a => if p ≤ a ∧ a < p + ptrSize then v / 256 ^ (a - p) % 256 else m a

/-- The four data members of the pool object. -/
structure Pool where
  currentBlock_ : Nat
  currentSlot_ : Nat
  lastSlot_ : Nat
  freeSlots_ : Nat
deriving DecidableEq, Repr

/-- The pool object together with the heap and the trace of the memory source:
`requests` are the sizes passed to `operator new` (newest first), `obtained` the
block addresses it returned (newest first). -/
structure World where
  pool : Pool
  mem : Memory
  requests : List Nat
  obtained : List Nat

/-- Outcome of a call that may throw `std::bad_alloc`. -/
inductive Result where
  | ok (p : Nat) (w : World)
  | threw (w : World)

/-- `padPointer(p, align)`: `(align - result) % align` in unsigned 64-bit arithmetic. -/
@[irreducible] def padPointer (p align : Nat) : Nat :=
  ((align + wordMod - p % wordMod) % wordMod) % align

/-- `MemoryPool()`: all four members are `nullptr`. -/
def Pool.fresh : Pool := ⟨0, 0, 0, 0⟩

/-- A freshly constructed pool in heap `m`, before any contact with the memory source. -/
def World.fresh (m : Memory) : World := ⟨Pool.fresh, m, [], []⟩

/-- Body of `allocateBlock()` once `operator new(BlockSize)` has returned `newBlock`. -/
def allocateBlockAt (c : Config) (newBlock : Nat) (w : World) : World :=
  let body := newBlock + ptrSize
  let bodyPadding := padPointer body c.slotAlign
  { pool :=
      { currentBlock_ := newBlock
        currentSlot_ := body + bodyPadding
        lastSlot_ := newBlock + c.BlockSize - c.slotSize + 1
        freeSlots_ := w.pool.freeSlots_ }
    mem := writePtr w.mem newBlock w.pool.currentBlock_
    requests := c.BlockSize :: w.requests
    obtained := newBlock :: w.obtained }

/-- `allocateBlock()`: the request to the memory source comes first; when it
throws nothing has been written yet. -/
def allocateBlock (c : Config) (src : Nat → Option Nat) (w : World) : Except World World :=
  match src w.requests.length with
  | none => .error { w with requests := c.BlockSize :: w.requests }
  | some newBlock => .ok (allocateBlockAt c newBlock w)

/-- `currentSlot_++` and return of the old value. -/
def carve (c : Config) (w : World) : Result :=
  .ok w.pool.currentSlot_
    { w with pool := { w.pool with currentSlot_ := w.pool.currentSlot_ + c.slotSize } }

/-- `allocate(n, hint)`; both arguments are ignored by the code. -/
def allocate (c : Config) (src : Nat → Option Nat) (w : World) : Result :=
  if w.pool.freeSlots_ ≠ 0 then
    .ok w.pool.freeSlots_
      { w with pool := { w.pool with freeSlots_ := readPtr w.mem w.pool.freeSlots_ } }
  else if w.pool.currentSlot_ ≥ w.pool.lastSlot_ then
    match allocateBlock c src w with
    | .error w' => .threw w'
    | .ok w' => carve c w'
  else carve c w

/-- `deallocate(p, n)`. -/
def deallocate (p : Nat) (w : World) : World :=
  if p ≠ 0 then
    { w with
      mem := writePtr w.mem p w.pool.freeSlots_
      pool := { w.pool with freeSlots_ := p } }
  else w

/-- World left behind by a call, whether it returned or threw. -/
def Result.world : Result → World
  | .ok _ w => w
  | .threw w => w

/-- Condition under which `allocate()` reaches `allocateBlock()`. -/
def needsBlock (w : World) : Prop :=
  w.pool.freeSlots_ = 0 ∧ w.pool.currentSlot_ ≥ w.pool.lastSlot_

instance (w : World) : Decidable (needsBlock w) := by
  unfold needsBlock; infer_instance

/-- Caller: `deallocate(p₁); …; deallocate(pₙ)` in list order. -/
def deallocateAll : List Nat → World → World
  | [], w => w
  | p :: ps, w => deallocateAll ps (deallocate p w)

/-- Caller: `n` consecutive `allocate()` calls; `none` when one of them throws. -/
def allocateN (c : Config) (src : Nat → Option Nat) : Nat → World → Option (List Nat × World)
  | 0, w => some ([], w)
  | n + 1, w =>
    match allocate c src w with
    | .threw _ => none
    | .ok p w' =>
      match allocateN c src n w' with
      | none => none
      | some (ps, w'') => some (p :: ps, w'')

/-- One action on the pool or its heap: `allocate()`, `deallocate(p)`, or a
store of one byte by the client (construction or assignment of an element). -/
inductive Op where
  | alloc
  | dealloc (p : Nat)
  | store (a v : Nat)

/-- Effect of one action; a throwing `allocate()` leaves the world it threw in. -/
def step (c : Config) (src : Nat → Option Nat) (w : World) : Op → World
  | .alloc => (allocate c src w).world
  | .dealloc p => deallocate p w
  | .store a v => { w with mem := fun x => if x = a then v else w.mem x }

/-- Effect of a sequence of actions, first action first. -/
def run (c : Config) (src : Nat → Option Nat) : List Op → World → World
  | [], w => w
  | op :: ops, w => run c src ops (step c src w op)

/-- Address returned by `allocate()`, `none` when it threw. -/
def Result.addr : Result → Option Nat
  | .ok p _ => some p
  | .threw _ => none

/-- Results of the `allocate()` calls of a sequence of actions, in call order. -/
def returned (c : Config) (src : Nat → Option Nat) : List Op → World → List (Option Nat)
  | [], _ => []
  | .alloc :: ops, w =>
    (allocate c src w).addr :: returned c src ops (allocate c src w).world
  | op :: ops, w => returned c src ops (step c src w op)

/-- `MemoryPool(MemoryPool&& memoryPool)`: the pair (constructed pool, moved-from
pool).  Only `memoryPool.currentBlock_` is assigned in the moved-from object.
The source text reads the member `freeSlots` of the argument, which is taken to
be `freeSlots_`. -/
def moveConstruct (memoryPool : Pool) : Pool × Pool :=
  ({ currentBlock_ := memoryPool.currentBlock_
     currentSlot_ := memoryPool.currentSlot_
     lastSlot_ := memoryPool.lastSlot_
     freeSlots_ := memoryPool.freeSlots_ },
   { memoryPool with currentBlock_ := 0 })

/-- The first slot of a block at `b` fits between the back-link and the block end. -/
def BlockFits (c : Config) (b : Nat) : Prop :=
  ptrSize + padPointer (b + ptrSize) c.slotAlign + c.slotSize ≤ c.BlockSize

/-- Cursor bounds relative to the newest block. -/
def CursorOK (c : Config) (w : World) : Prop :=
  match w.obtained with
  | [] => True
  | b :: _ =>
    c.slotSize ≤ c.BlockSize ∧
    w.pool.lastSlot_ = b + c.BlockSize - c.slotSize + 1 ∧
    w.pool.currentSlot_ ≤ b + c.BlockSize

/-- Following `next` links from `cur` visits exactly the addresses `bs`, in
order, and then reaches `nullptr`.  Used for the back-link chain of blocks and
for the free list, which are both threaded through a word at offset `0`. -/
def Chain (m : Memory) : Nat → List Nat → Prop
  | cur, [] => cur = 0
  | cur, b :: bs => cur = b ∧ b ≠ 0 ∧ Chain m (readPtr m b) bs

/-- Two blocks of `BlockSize` bytes do not overlap. -/
def Apart (c : Config) (b b' : Nat) : Prop :=
  b + c.BlockSize ≤ b' ∨ b' + c.BlockSize ≤ b

/-- Assumptions on `operator new`: it never returns `nullptr`, a block lies
inside the 64-bit address space, and two blocks handed out by different
requests do not overlap (no block is released before the destructor runs). -/
def SourceOK (c : Config) (src : Nat → Option Nat) : Prop :=
  (∀ k b, src k = some b → b ≠ 0 ∧ b + c.BlockSize ≤ 2 ^ 64) ∧
  (∀ i j bi bj, i ≠ j → src i = some bi → src j = some bj → Apart c bi bj)

/-- Heap after `operator delete(b)`: the released block holds whatever the
memory source leaves there (`scribble`), the rest is untouched. -/
def release (c : Config) (scribble : Memory) (m : Memory) (b : Nat) : Memory :=
  fun a => if b ≤ a ∧ a < b + c.BlockSize then scribble a else m a

/-- Loop of `~MemoryPool()`: read `curr->next`, then `operator delete(curr)`.
Returns the addresses passed to `operator delete`, in call order; `none` when
`fuel` iterations were not enough to reach `nullptr`. -/
def destroyLoop (c : Config) (scribble : Memory) : Nat → Memory → Nat → Option (List Nat)
  | 0, _, curr => if curr ≠ 0 then none else some []
  | fuel + 1, m, curr =>
    if curr ≠ 0 then
      (destroyLoop c scribble fuel (release c scribble m curr) (readPtr m curr)).map
        (fun released => curr :: released)
    else some []

/-- `~MemoryPool()` run on a world. -/
def destructor (c : Config) (scribble : Memory) (fuel : Nat) (w : World) : Option (List Nat) :=
  destroyLoop c scribble fuel w.mem w.pool.currentBlock_

/-- The store made by an action does not touch the back-link word of any owned block. -/
def Op.sparesBackLinks (w : World) : Op → Prop
  | .alloc => True
  | .dealloc p => p = 0 ∨ ∀ b ∈ w.obtained, p + ptrSize ≤ b ∨ b + ptrSize ≤ p
  | .store a _ => ∀ b ∈ w.obtained, a < b ∨ b + ptrSize ≤ a

/-- No action of the sequence overwrites a back-link word. -/
def SparesBackLinks (c : Config) (src : Nat → Option Nat) : List Op → World → Prop
  | [], _ => True
  | op :: ops, w => op.sparesBackLinks w ∧ SparesBackLinks c src ops (step c src w op)

/-- The back-link chain from `currentBlock_` is the list of blocks handed out by
the memory source, which are pairwise apart. -/
def ChainInv (c : Config) (src : Nat → Option Nat) (w : World) : Prop :=
  Chain w.mem w.pool.currentBlock_ w.obtained ∧
  (∀ b ∈ w.obtained, ∃ k, k < w.requests.length ∧ src k = some b) ∧
  w.obtained.Pairwise (Apart c)

/-- Address of the first slot of the block at `b`: `body + bodyPadding`. -/
def firstSlot (c : Config) (b : Nat) : Nat :=
  b + ptrSize + padPointer (b + ptrSize) c.slotAlign

/-- Address `p` is a slot already carved from an owned block: it lies on the
slot grid of that block, wholly inside it, and below the cursor when the block
is the current one. -/
def IsSlot (c : Config) (w : World) (p : Nat) : Prop :=
  ∃ b ∈ w.obtained, firstSlot c b ≤ p ∧ p + c.slotSize ≤ b + c.BlockSize ∧
    c.slotSize ∣ p - firstSlot c b ∧
    (b = w.pool.currentBlock_ → p + c.slotSize ≤ w.pool.currentSlot_)

/-- The cursor lies on the slot grid of the newest block (both cursors are
`nullptr` while there is no block). -/
def CursorInv (c : Config) (w : World) : Prop :=
  match w.obtained with
  | [] => w.pool.currentSlot_ = 0 ∧ w.pool.lastSlot_ = 0
  | b :: _ =>
    w.pool.lastSlot_ = b + c.BlockSize - c.slotSize + 1 ∧
    firstSlot c b ≤ w.pool.currentSlot_ ∧ w.pool.currentSlot_ ≤ b + c.BlockSize ∧
    c.slotSize ∣ w.pool.currentSlot_ - firstSlot c b

/-- State invariant of the pool: `live` are the slots handed out and not yet
given back, `free` the slots on the free list, head first. -/
def Inv (c : Config) (src : Nat → Option Nat) (w : World) (live free : List Nat) : Prop :=
  ChainInv c src w ∧ CursorInv c w ∧ Chain w.mem w.pool.freeSlots_ free ∧
  (live ++ free).Nodup ∧ ∀ p ∈ live ++ free, IsSlot c w p

/-- Assumptions on the environment: a well-behaved memory source, a slot that
can hold the free-list link, and blocks in which the first slot fits. -/
def Env (c : Config) (src : Nat → Option Nat) : Prop :=
  SourceOK c src ∧ ptrSize ≤ c.slotSize ∧ ∀ k b, src k = some b → BlockFits c b

/-- Slots held by the client after one action. -/
def liveStep (c : Config) (src : Nat → Option Nat) (w : World) (live : List Nat) : Op → List Nat
  | .alloc =>
    match (allocate c src w).addr with
    | some p => p :: live
    | none => live
  | .dealloc p => live.erase p
  | .store _ _ => live

/-- Slots held by the client after a sequence of actions. -/
def liveAfter (c : Config) (src : Nat → Option Nat) : List Op → World → List Nat → List Nat
  | [], _, live => live
  | op :: ops, w, live => liveAfter c src ops (step c src w op) (liveStep c src w live op)

/-- An action respects the contract of the pool: `deallocate` is given
`nullptr` or a slot the client holds, and the client stores only inside slots
it holds. -/
def Op.inContract (c : Config) (live : List Nat) : Op → Prop
  | .alloc => True
  | .dealloc p => p = 0 ∨ p ∈ live
  | .store a _ => ∃ p ∈ live, p ≤ a ∧ a < p + c.slotSize

/-- Every action of the sequence respects the contract. -/
def InContract (c : Config) (src : Nat → Option Nat) : List Op → World → List Nat → Prop
  | [], _, _ => True
  | op :: ops, w, live =>
    op.inContract c live ∧ InContract c src ops (step c src w op) (liveStep c src w live op)

/-- End-to-end scenario of the specification: blocks of 56 bytes hold exactly
three 16-byte slots after the 8-byte back-link. -/
def scenarioCfg : Config := ⟨56, 16, 8⟩

/-- Memory source of the scenario: it can supply sixteen blocks, the `k`-th one
starting at `4096 * (k + 1)`. -/
def scenarioSrc : Nat → Option Nat := fun k => if k < 16 then some (4096 * (k + 1)) else none

/-- Heap of the scenario before the pool exists. -/
def zeroMem : Memory := fun _ => 0

/-- First phase of the scenario: five allocations. -/
def scenarioFive : List Op := [.alloc, .alloc, .alloc, .alloc, .alloc]

/-- World of the scenario after its five allocations. -/
def scenarioWorld : World := run scenarioCfg scenarioSrc scenarioFive (World.fresh zeroMem)

/-- The whole scenario: five allocations, `deallocate` of elements 2 and 4, two
more allocations. -/
def scenarioOps : List Op :=
  [.alloc, .alloc, .alloc, .alloc, .alloc, .dealloc 4120, .dealloc 8200, .alloc, .alloc]

/-- A configuration whose 16-byte blocks cannot hold a 16-byte slot after the back-link. -/
def tinyCfg : Config := ⟨16, 16, 8⟩

/-- `MemoryPool(const MemoryPool&)`, which delegates to `MemoryPool()` and has an
empty body: the pair (constructed pool, argument afterwards). -/
def copyConstruct (memoryPool : Pool) : Pool × Pool :=
  (Pool.fresh, memoryPool)

/-- `MemoryPool(const MemoryPool<U>&)`: the converting constructor from a pool of
another element type, again delegating to `MemoryPool()`. -/
def convertConstruct (memoryPool : Pool) : Pool × Pool :=
  (Pool.fresh, memoryPool)

/-- `operator=(MemoryPool&& memoryPool)`: the pair (assigned pool, argument
afterwards).  `sameObject` is the outcome of `this == &memoryPool`.  Only the
two `currentBlock_` members are swapped; the other three members are copied
from the argument and left as they are in it.  The source text reads the member
`freeSlots` of the argument, which is taken to be `freeSlots_`. -/
def moveAssign (sameObject : Bool) (self memoryPool : Pool) : Pool × Pool :=
  if sameObject then (self, memoryPool)
  else
    ({ currentBlock_ := memoryPool.currentBlock_
       currentSlot_ := memoryPool.currentSlot_
       lastSlot_ := memoryPool.lastSlot_
       freeSlots_ := memoryPool.freeSlots_ },
     { memoryPool with currentBlock_ := self.currentBlock_ })

/-- The scenario up to and including its two `deallocate` calls. -/
def scenarioSeven : List Op :=
  [.alloc, .alloc, .alloc, .alloc, .alloc, .dealloc 4120, .dealloc 8200]

/-- Number of whole slots between the first slot of the block at `b` and the
block end: `floor((BlockSize - 8 - padding) / slotSize)`. -/
def slotsIn (c : Config) (b : Nat) : Nat :=
  (c.BlockSize - ptrSize - padPointer (b + ptrSize) c.slotAlign) / c.slotSize

/-- The free list is empty and the cursor stands `i` slots after the first slot
of the block at `b`, whose end fixes `lastSlot_`. -/
def CarvedTo (c : Config) (w : World) (b i : Nat) : Prop :=
  w.pool.freeSlots_ = 0 ∧
  w.pool.currentSlot_ = firstSlot c b + i * c.slotSize ∧
  w.pool.lastSlot_ = b + c.BlockSize - c.slotSize + 1

/-- State of a pool after `j` allocations and no `deallocate`, when every block
yields `cnt` slots: either nothing has happened, or the newest block has given
`i` of its slots (`1 ≤ i ≤ cnt`) and every older block all of them. -/
def Fill (c : Config) (cnt j : Nat) (w : World) : Prop :=
  w.pool.freeSlots_ = 0 ∧ w.requests.length = w.obtained.length ∧
  ((j = 0 ∧ w.obtained = [] ∧ w.pool.currentSlot_ = 0 ∧ w.pool.lastSlot_ = 0) ∨
   ∃ b rest i, w.obtained = b :: rest ∧ slotsIn c b = cnt ∧ CarvedTo c w b i ∧
     1 ≤ i ∧ i ≤ cnt ∧ j = rest.length * cnt + i)

/-- Workload of `r` repetitions of: `n` allocations, then `deallocate` of the
`n` returned addresses in the order chosen by `ord`; `none` when an allocation
throws. -/
def repeatCycle (c : Config) (src : Nat → Option Nat) (n : Nat) (ord : List Nat → List Nat) :
    Nat → World → Option World
  | 0, w => some w
  | r + 1, w =>
    match allocateN c src n w with
    | none => none
    | some (qs, w₁) => repeatCycle c src n ord r (deallocateAll (ord qs) w₁)

/-- `max_size()`: `maxBlocks = -1 / BlockSize` with `-1` converted to the
unsigned 64-bit `size_type`, then
`(BlockSize - sizeof(data_pointer_)) / sizeof(slot_type_) * maxBlocks`, all in
unsigned 64-bit arithmetic. -/
def max_size (c : Config) : Nat :=
  let maxBlocks := (wordMod - 1) / c.BlockSize
  ((c.BlockSize + wordMod - ptrSize) % wordMod / c.slotSize * maxBlocks) % wordMod

/-- Layout of `StackNode_<T>`: `sizeof(T)`, the offset of `prev`, `sizeof(Node)`.
An element of type `T` is represented by its `dataSize` bytes. -/
structure NodeLayout where
  dataSize : Nat
  prevOffset : Nat
  nodeSize : Nat

/-- The member `data` ends before `prev`, and `prev` lies inside the node. -/
def NodeLayout.OK (L : NodeLayout) : Prop :=
  L.dataSize ≤ L.prevOffset ∧ L.prevOffset + ptrSize ≤ L.nodeSize

/-- The template parameter `Alloc` of `StackAlloc` (after `rebind<Node>`), acting
on a world `W` that contains the heap: the heap of a world, the world after
stores by the client, `allocate(1)` (`none` when it throws) and `deallocate(p, 1)`. -/
structure Allocator (W : Type) where
  mem : W → Memory
  withMem : W → Memory → W
  allocate : W → Option (Nat × W)
  deallocate : Nat → W → W

/-- Store of the bytes `x` at `p`. -/
def storeBytes (m : Memory) (p : Nat) (x : List Nat) : Memory :=
  fun a => if p ≤ a ∧ a < p + x.length then x.getD (a - p) 0 else m a

/-- Load of the `n` bytes at `p`. -/
def loadBytes (m : Memory) (p n : Nat) : List Nat :=
  (List.range n).map (fun i => m (p + i))

/-- The data members of `StackAlloc`: `allocator_` (with the heap it works on) and `head_`. -/
structure StackAlloc (W : Type) where
  allocator_ : W
  head_ : Nat

/-- `StackAlloc::empty()`: `head_ == 0`. -/
def StackAlloc.empty {W : Type} (s : StackAlloc W) : Bool :=
  s.head_ == 0

/-- `StackAlloc::push(element)`: `allocate(1)`, `construct(newNode, Node())`
(a value-initialised node, all bytes zero), then the stores to `data` and
`prev`, then `head_ = newNode`; `none` when `allocate` throws. -/
def StackAlloc.push {W : Type} (A : Allocator W) (L : NodeLayout) (element : List Nat)
    (s : StackAlloc W) : Option (StackAlloc W) :=
  match A.allocate s.allocator_ with
  | none => none
  | some (newNode, a) =>
    let m₁ := storeBytes (A.mem a) newNode (List.replicate L.nodeSize 0)
    let m₂ := storeBytes m₁ newNode element
    let m₃ := writePtr m₂ (newNode + L.prevOffset) s.head_
    some ⟨A.withMem a m₃, newNode⟩

/-- `StackAlloc::pop()`: read `head_->data` and `head_->prev`, `destroy(head_)`
(the node has a trivial destructor), `deallocate(head_, 1)`, `head_ = tmp`;
returns the element read and the stack afterwards. -/
def StackAlloc.pop {W : Type} (A : Allocator W) (L : NodeLayout) (s : StackAlloc W) :
    List Nat × StackAlloc W :=
  let result := loadBytes (A.mem s.allocator_) s.head_ L.dataSize
  let tmp := readPtr (A.mem s.allocator_) (s.head_ + L.prevOffset)
  (result, ⟨A.deallocate s.head_ s.allocator_, tmp⟩)

/-- Caller: `push` of each element of the list, first element first. -/
def StackAlloc.pushAll {W : Type} (A : Allocator W) (L : NodeLayout) :
    List (List Nat) → StackAlloc W → Option (StackAlloc W)
  | [], s => some s
  | x :: xs, s =>
    match StackAlloc.push A L x s with
    | none => none
    | some s' => StackAlloc.pushAll A L xs s'

/-- Caller: `n` calls of `pop`, with the elements returned in call order. -/
def StackAlloc.popN {W : Type} (A : Allocator W) (L : NodeLayout) :
    Nat → StackAlloc W → List (List Nat) × StackAlloc W
  | 0, s => ([], s)
  | n + 1, s =>
    let r := StackAlloc.pop A L s
    let rest := StackAlloc.popN A L n r.2
    (r.1 :: rest.1, rest.2)

/-- The nodes `nodes` (top first), linked through `prev` from `head` down to
`nullptr`, hold the elements `xs` (top first). -/
def Rep (L : NodeLayout) (m : Memory) : Nat → List (List Nat) → List Nat → Prop
  | head, [], [] => head = 0
  | head, x :: xs, p :: ps =>
    head = p ∧ p ≠ 0 ∧ loadBytes m p L.dataSize = x ∧
      Rep L m (readPtr m (p + L.prevOffset)) xs ps
  | _, _, _ => False

/-- What a container needs from its allocator.  `I a held` relates a world of
the allocator to the nodes the client holds: these are non-null, inside the
address space and pairwise disjoint; `allocate` and `deallocate` keep `I` and
leave the bytes of the other held nodes alone; stores by the client inside held
nodes keep `I`. -/
def AllocatorOK {W : Type} (A : Allocator W) (L : NodeLayout) (I : W → List Nat → Prop) :
    Prop :=
  (∀ a m, A.mem (A.withMem a m) = m) ∧
  (∀ a held, I a held →
    held.Pairwise (fun p q => p + L.nodeSize ≤ q ∨ q + L.nodeSize ≤ p) ∧
    ∀ p ∈ held, p ≠ 0 ∧ p + L.nodeSize ≤ 2 ^ 64) ∧
  (∀ a held p a₁, I a held → A.allocate a = some (p, a₁) →
    I a₁ (p :: held) ∧
    ∀ q ∈ held, ∀ x, q ≤ x → x < q + L.nodeSize → A.mem a₁ x = A.mem a x) ∧
  (∀ a held p, I a held → p ∈ held →
    I (A.deallocate p a) (held.erase p) ∧
    ∀ q ∈ held, q ≠ p → ∀ x, q ≤ x → x < q + L.nodeSize →
      A.mem (A.deallocate p a) x = A.mem a x) ∧
  (∀ a held m', I a held →
    (∀ x, (∀ q ∈ held, x < q ∨ q + L.nodeSize ≤ x) → m' x = A.mem a x) →
    I (A.withMem a m') held)

/-- The stack `s` holds the elements `xs` (top first) in nodes that are exactly
the nodes its allocator has handed out and not got back. -/
def StackOK {W : Type} (A : Allocator W) (L : NodeLayout) (I : W → List Nat → Prop)
    (s : StackAlloc W) (xs : List (List Nat)) : Prop :=
  ∃ nodes, I s.allocator_ nodes ∧ Rep L (A.mem s.allocator_) s.head_ xs nodes

/-- `MemoryPool` as the allocator of a `StackAlloc`. -/
def poolAllocator (c : Config) (src : Nat → Option Nat) : Allocator World where
  mem := World.mem
  withMem := fun w m => { w with mem := m }
  allocate := fun w =>
    match allocate c src w with
    | .ok p w' => some (p, w')
    | .threw _ => none
  deallocate := deallocate

/-- Layout of `StackNode_<int>`: a 4-byte `data`, `prev` at offset 8, 16 bytes in all. -/
def intNode : NodeLayout := ⟨4, 8, 16⟩

/-- The pool in world `w` is in a state of its invariant in which the client
holds exactly the slots `held`. -/
def PoolHolds (c : Config) (src : Nat → Option Nat) (w : World) (held : List Nat) : Prop :=
  ∃ free, Inv c src w held free

end MemoryPool

namespace MemoryPool

theorem readBytes_congr (m₁ m₂ : Memory) (n p : Nat)
    (h : ∀ a, p ≤ a → a < p + n → m₁ a = m₂ a) : readBytes m₁ p n = readBytes m₂ p n := by
  induction n generalizing p with
  | zero => rfl
  | succ n ih =>
    simp only [readBytes]
    rw [h p (le_refl _) (by omega), ih (p + 1) (fun a h1 h2 => h a (by omega) (by omega))]

theorem readPtr_congr (m₁ m₂ : Memory) (p : Nat)
    (h : ∀ a, p ≤ a → a < p + 8 → m₁ a = m₂ a) : readPtr m₁ p = readPtr m₂ p := by
  unfold readPtr ptrSize
  exact readBytes_congr m₁ m₂ 8 p h

theorem writePtr_outside (m : Memory) (p v a : Nat) (h : a < p ∨ p + 8 ≤ a) :
    writePtr m p v a = m a := by
  unfold writePtr ptrSize
  rw [if_neg (by omega)]

theorem readPtr_writePtr_disjoint (m : Memory) (p v q : Nat) (h : q + 8 ≤ p ∨ p + 8 ≤ q) :
    readPtr (writePtr m p v) q = readPtr m q :=
  readPtr_congr _ _ q (fun a h1 h2 => writePtr_outside m p v a (by omega))

theorem readPtr_lt (m : Memory) (p : Nat) : readPtr m p < 2 ^ 64 := by
  simp only [readPtr, ptrSize, readBytes]
  omega

theorem readPtr_writePtr_same (m : Memory) (p v : Nat) (hv : v < 2 ^ 64) :
    readPtr (writePtr m p v) p = v := by
  have e : ∀ k, k < 8 → writePtr m p v (p + k) = v / 256 ^ k % 256 := by
    intro k hk
    unfold writePtr ptrSize
    rw [if_pos (by omega), Nat.add_sub_cancel_left]
  have e0 := e 0 (by omega)
  have e1 := e 1 (by omega)
  have e2 := e 2 (by omega)
  have e3 := e 3 (by omega)
  have e4 := e 4 (by omega)
  have e5 := e 5 (by omega)
  have e6 := e 6 (by omega)
  have e7 := e 7 (by omega)
  simp only [Nat.add_zero] at e0
  simp only [readPtr, ptrSize, readBytes, Nat.add_assoc]
  norm_num at e0 e1 e2 e3 e4 e5 e6 e7 ⊢
  rw [e0, e1, e2, e3, e4, e5, e6, e7]
  omega

theorem padPointer_eq_of_dvd (p a : Nat) (hp : p < 2 ^ 64) (hW : a ∣ 2 ^ 64) (hpos : 0 < a) :
    padPointer p a = (a - p % a) % a := by
  have hr : p % a < a := Nat.mod_lt _ hpos
  have hdm : a * (p / a) + p % a = p := Nat.div_add_mod p a
  unfold padPointer wordMod
  rw [Nat.mod_eq_of_lt hp, Nat.mod_mod_of_dvd _ hW]
  have h2 : (a + 2 ^ 64 - p) ≡ (a - p % a) [MOD a] := by
    apply Nat.ModEq.add_right_cancel' p
    have e1 : a + 2 ^ 64 - p + p = a + 2 ^ 64 := by omega
    have e2 : a - p % a + p = a + a * (p / a) := by omega
    rw [e1, e2]
    have z1 : a + 2 ^ 64 ≡ 0 [MOD a] := (Nat.modEq_zero_iff_dvd).2 (Dvd.dvd.add (dvd_refl a) hW)
    have z2 : a + a * (p / a) ≡ 0 [MOD a] :=
      (Nat.modEq_zero_iff_dvd).2 (Dvd.dvd.add (dvd_refl a) (Dvd.intro _ rfl))
    exact z1.trans z2.symm
  exact h2

theorem padPointer_lt (p a : Nat) (ha : 0 < a) : padPointer p a < a := by
  unfold padPointer
  exact Nat.mod_lt _ ha

theorem padPointer_eval (p a : Nat) :
    padPointer p a = ((a + 2 ^ 64 - p % 2 ^ 64) % 2 ^ 64) % a := by
  unfold padPointer wordMod; rfl

theorem padPointer_aligned_of_dvd (p a : Nat) (hp : p < 2 ^ 64) (hW : a ∣ 2 ^ 64)
    (hpos : 0 < a) : (p + padPointer p a) % a = 0 := by
  have hr : p % a < a := Nat.mod_lt _ hpos
  have hdm : a * (p / a) + p % a = p := Nat.div_add_mod p a
  rw [padPointer_eq_of_dvd p a hp hW hpos]
  by_cases h0 : p % a = 0
  · rw [h0, Nat.sub_zero, Nat.mod_self, Nat.add_zero, h0]
  · rw [Nat.mod_eq_of_lt (show a - p % a < a by omega)]
    have e : p + (a - p % a) = a * (p / a + 1) := by rw [Nat.mul_add, Nat.mul_one]; omega
    rw [e, Nat.mul_mod_right]

theorem padPointer_least_of_dvd (p a d : Nat) (hp : p < 2 ^ 64) (hW : a ∣ 2 ^ 64)
    (hpos : 0 < a) (hd : (p + d) % a = 0) : padPointer p a ≤ d := by
  have hr : p % a < a := Nat.mod_lt _ hpos
  rw [padPointer_eq_of_dvd p a hp hW hpos]
  by_cases h0 : p % a = 0
  · rw [h0, Nat.sub_zero, Nat.mod_self]; exact Nat.zero_le _
  · rw [Nat.mod_eq_of_lt (show a - p % a < a by omega)]
    by_contra hlt
    have hdl : d < a := by omega
    rw [Nat.add_mod, Nat.mod_eq_of_lt hdl, Nat.mod_eq_of_lt (show p % a + d < a by omega)] at hd
    omega

theorem pow_two_dvd_word (a k : Nat) (hk : k ≤ 63) (ha : a = 2 ^ k) : a ∣ 2 ^ 64 ∧ 0 < a := by
  subst ha
  exact ⟨pow_dvd_pow 2 (by omega), by positivity⟩

/-- C9. For every 64-bit address `p` and every power-of-two alignment `a = 2^k`
(`k ≤ 63`), `padPointer p a`, computed with 64-bit wrap-around, equals
`(a - p mod a) mod a`; it is below `a`, makes `p + padPointer p a` a multiple of
`a`, is the least offset doing so, and is `0` when `p` is already aligned. -/
theorem padPointer_spec (p a k : Nat) (hp : p < 2 ^ 64) (hk : k ≤ 63) (ha : a = 2 ^ k) :
    padPointer p a = (a - p % a) % a ∧
    padPointer p a < a ∧
    (p + padPointer p a) % a = 0 ∧
    (∀ d, (p + d) % a = 0 → padPointer p a ≤ d) ∧
    (p % a = 0 → padPointer p a = 0) := by
  obtain ⟨hW, hpos⟩ := pow_two_dvd_word a k hk ha
  refine ⟨padPointer_eq_of_dvd p a hp hW hpos, padPointer_lt p a hpos,
    padPointer_aligned_of_dvd p a hp hW hpos,
    fun d hd => padPointer_least_of_dvd p a d hp hW hpos hd, ?_⟩
  intro h0
  have := padPointer_least_of_dvd p a 0 hp hW hpos (by simpa using h0)
  omega

/-- Witness for C9 at address `72` and alignment `64 = 2^6`: the padding is `56`. -/
theorem padPointer_spec_witness :
    padPointer 72 64 = (64 - 72 % 64) % 64 ∧ padPointer 72 64 < 64 ∧
    (72 + padPointer 72 64) % 64 = 0 ∧
    (∀ d, (72 + d) % 64 = 0 → padPointer 72 64 ≤ d) ∧
    (72 % 64 = 0 → padPointer 72 64 = 0) :=
  padPointer_spec 72 64 6 (by norm_num) (by norm_num) (by norm_num)

/-- C10. `deallocate(nullptr)` changes nothing; for `p ≠ nullptr`, `deallocate(p)`
stores the old free-list head in the link word at `p`, makes `p` the head,
leaves `currentBlock_`, `currentSlot_`, `lastSlot_` and every byte outside
`[p, p+8)` unchanged, and makes no request to the memory source. -/
theorem deallocate_effect (w : World) (hf : w.pool.freeSlots_ < 2 ^ 64) :
    deallocate 0 w = w ∧
    ∀ p, p ≠ 0 →
      readPtr (deallocate p w).mem p = w.pool.freeSlots_ ∧
      (deallocate p w).pool.freeSlots_ = p ∧
      (deallocate p w).pool.currentBlock_ = w.pool.currentBlock_ ∧
      (deallocate p w).pool.currentSlot_ = w.pool.currentSlot_ ∧
      (deallocate p w).pool.lastSlot_ = w.pool.lastSlot_ ∧
      (∀ a, a < p ∨ p + 8 ≤ a → (deallocate p w).mem a = w.mem a) ∧
      (deallocate p w).requests = w.requests ∧
      (deallocate p w).obtained = w.obtained := by
  refine ⟨by simp [deallocate], fun p hp => ?_⟩
  unfold deallocate
  rw [if_pos hp]
  exact ⟨readPtr_writePtr_same _ _ _ hf, rfl, rfl, rfl, rfl,
    fun a ha => writePtr_outside _ _ _ _ ha, rfl, rfl⟩

/-- Witness for C10 on a freshly constructed pool over zeroed memory. -/
theorem deallocate_effect_witness :
    (World.fresh (fun _ => 0)).pool.freeSlots_ < 2 ^ 64 ∧
    (deallocate 0 (World.fresh (fun _ => 0)) = World.fresh (fun _ => 0) ∧
    ∀ p, p ≠ 0 →
      readPtr (deallocate p (World.fresh (fun _ => 0))).mem p
        = (World.fresh (fun _ => 0)).pool.freeSlots_ ∧
      (deallocate p (World.fresh (fun _ => 0))).pool.freeSlots_ = p ∧
      (deallocate p (World.fresh (fun _ => 0))).pool.currentBlock_
        = (World.fresh (fun _ => 0)).pool.currentBlock_ ∧
      (deallocate p (World.fresh (fun _ => 0))).pool.currentSlot_
        = (World.fresh (fun _ => 0)).pool.currentSlot_ ∧
      (deallocate p (World.fresh (fun _ => 0))).pool.lastSlot_
        = (World.fresh (fun _ => 0)).pool.lastSlot_ ∧
      (∀ a, a < p ∨ p + 8 ≤ a →
        (deallocate p (World.fresh (fun _ => 0))).mem a = (World.fresh (fun _ => 0)).mem a) ∧
      (deallocate p (World.fresh (fun _ => 0))).requests = (World.fresh (fun _ => 0)).requests ∧
      (deallocate p (World.fresh (fun _ => 0))).obtained
        = (World.fresh (fun _ => 0)).obtained) :=
  ⟨by decide, deallocate_effect (World.fresh (fun _ => 0)) (by decide)⟩

theorem allocate_free (c : Config) (src : Nat → Option Nat) (w : World)
    (h : w.pool.freeSlots_ ≠ 0) :
    allocate c src w = .ok w.pool.freeSlots_
      { w with pool := { w.pool with freeSlots_ := readPtr w.mem w.pool.freeSlots_ } } := by
  unfold allocate
  rw [if_pos h]

theorem allocate_carve (c : Config) (src : Nat → Option Nat) (w : World)
    (h : w.pool.freeSlots_ = 0) (h2 : w.pool.currentSlot_ < w.pool.lastSlot_) :
    allocate c src w = carve c w := by
  unfold allocate
  rw [if_neg (by simp [h]), if_neg (by omega)]

theorem allocate_grow (c : Config) (src : Nat → Option Nat) (w : World) (nb : Nat)
    (h : needsBlock w) (hs : src w.requests.length = some nb) :
    allocate c src w = carve c (allocateBlockAt c nb w) := by
  unfold allocate allocateBlock
  rw [if_neg (by simp [h.1]), if_pos h.2, hs]

theorem allocate_fail (c : Config) (src : Nat → Option Nat) (w : World)
    (h : needsBlock w) (hs : src w.requests.length = none) :
    allocate c src w = .threw { w with requests := c.BlockSize :: w.requests } := by
  unfold allocate allocateBlock
  rw [if_neg (by simp [h.1]), if_pos h.2, hs]

/-- C5. If `allocate()` needs a block and the memory source fails, the call
throws and the pool members, the heap and the list of owned blocks are as
before; `allocate()` throws in no other situation; and when the free list is
non-empty or the cursor is below `lastSlot_` it returns without any request to
the memory source. -/
theorem allocate_out_of_memory (c : Config) (src : Nat → Option Nat) (w : World) :
    (needsBlock w → src w.requests.length = none →
      ∃ w', allocate c src w = .threw w' ∧ w'.pool = w.pool ∧ w'.mem = w.mem ∧
        w'.obtained = w.obtained) ∧
    (∀ w', allocate c src w = .threw w' → needsBlock w ∧ src w.requests.length = none) ∧
    (¬ needsBlock w →
      ∃ p w', allocate c src w = .ok p w' ∧ w'.requests = w.requests ∧
        w'.obtained = w.obtained) := by
  refine ⟨fun h hs => ⟨_, allocate_fail c src w h hs, rfl, rfl, rfl⟩, ?_, ?_⟩
  · intro w' hw'
    by_cases hf : w.pool.freeSlots_ ≠ 0
    · rw [allocate_free c src w hf] at hw'
      exact absurd hw' (by simp)
    · have hf0 : w.pool.freeSlots_ = 0 := by simpa using hf
      by_cases hc : w.pool.currentSlot_ < w.pool.lastSlot_
      · rw [allocate_carve c src w hf0 hc] at hw'
        exact absurd hw' (by simp [carve])
      · have hn : needsBlock w := ⟨hf0, by omega⟩
        refine ⟨hn, ?_⟩
        cases hs : src w.requests.length with
        | none => rfl
        | some nb =>
          rw [allocate_grow c src w nb hn hs] at hw'
          exact absurd hw' (by simp [carve])
  · intro hn
    by_cases hf : w.pool.freeSlots_ ≠ 0
    · exact ⟨_, _, allocate_free c src w hf, rfl, rfl⟩
    · have hf0 : w.pool.freeSlots_ = 0 := by simpa using hf
      have hc : w.pool.currentSlot_ < w.pool.lastSlot_ := by
        by_contra hge
        exact hn ⟨hf0, by omega⟩
      exact ⟨_, _, allocate_carve c src w hf0 hc, rfl, rfl⟩

/-- Witness for C5: a fresh pool whose memory source always fails. -/
theorem allocate_out_of_memory_witness :
    ∃ w', allocate scenarioCfg (fun _ => none) (World.fresh zeroMem) = .threw w' ∧
      w'.pool = (World.fresh zeroMem).pool ∧ w'.mem = (World.fresh zeroMem).mem ∧
      w'.obtained = (World.fresh zeroMem).obtained :=
  (allocate_out_of_memory scenarioCfg (fun _ => none) (World.fresh zeroMem)).1
    ⟨rfl, Nat.le_refl 0⟩ rfl

theorem allocate_requests (c : Config) (src : Nat → Option Nat) (w : World) :
    (allocate c src w).world.requests
      = if needsBlock w then c.BlockSize :: w.requests else w.requests := by
  by_cases hn : needsBlock w
  · rw [if_pos hn]
    cases hs : src w.requests.length with
    | none => rw [allocate_fail c src w hn hs]; rfl
    | some nb => rw [allocate_grow c src w nb hn hs]; rfl
  · rw [if_neg hn]
    by_cases hf : w.pool.freeSlots_ ≠ 0
    · rw [allocate_free c src w hf]; rfl
    · have hf0 : w.pool.freeSlots_ = 0 := by simpa using hf
      have hc : w.pool.currentSlot_ < w.pool.lastSlot_ := by
        by_contra hge
        exact hn ⟨hf0, by omega⟩
      rw [allocate_carve c src w hf0 hc]; rfl

theorem allocate_keeps_block (c : Config) (src : Nat → Option Nat) (w : World)
    (hn : ¬ needsBlock w) :
    (allocate c src w).world.pool.currentBlock_ = w.pool.currentBlock_ ∧
    (allocate c src w).world.pool.lastSlot_ = w.pool.lastSlot_ ∧
    (allocate c src w).world.obtained = w.obtained := by
  by_cases hf : w.pool.freeSlots_ ≠ 0
  · rw [allocate_free c src w hf]; exact ⟨rfl, rfl, rfl⟩
  · have hf0 : w.pool.freeSlots_ = 0 := by simpa using hf
    have hc : w.pool.currentSlot_ < w.pool.lastSlot_ := by
      by_contra hge
      exact hn ⟨hf0, by omega⟩
    rw [allocate_carve c src w hf0 hc]; exact ⟨rfl, rfl, rfl⟩

/-- C7. `allocate()` makes a request to the memory source exactly when the free
list is empty and `currentSlot_ >= lastSlot_` (true for a fresh pool), and then
it is one request of `BlockSize` bytes.  When the source answers with block
`nb`, the old `currentBlock_` is stored in the back-link word of `nb`, `nb`
becomes `currentBlock_`, the call returns `nb + 8 + padPointer (nb + 8) align`,
which is the first aligned address at or after `nb + 8`, and `currentSlot_` ends
one slot width past the returned address.  When no request is made,
`currentBlock_` and `lastSlot_` are unchanged. -/
theorem allocate_growth_linking (c : Config) (src : Nat → Option Nat) (w : World) :
    ((allocate c src w).world.requests
      = if needsBlock w then c.BlockSize :: w.requests else w.requests) ∧
    needsBlock (World.fresh w.mem) ∧
    (∀ nb, needsBlock w → src w.requests.length = some nb →
      ∃ w', allocate c src w = .ok (nb + 8 + padPointer (nb + 8) c.slotAlign) w' ∧
        w'.obtained = nb :: w.obtained ∧
        w'.pool.currentBlock_ = nb ∧
        w'.pool.currentSlot_ = nb + 8 + padPointer (nb + 8) c.slotAlign + c.slotSize ∧
        w'.pool.lastSlot_ = nb + c.BlockSize - c.slotSize + 1 ∧
        w'.pool.freeSlots_ = w.pool.freeSlots_ ∧
        (w.pool.currentBlock_ < 2 ^ 64 → readPtr w'.mem nb = w.pool.currentBlock_) ∧
        (∀ k, k ≤ 63 → c.slotAlign = 2 ^ k → nb + 8 < 2 ^ 64 →
          (nb + 8 + padPointer (nb + 8) c.slotAlign) % c.slotAlign = 0 ∧
          ∀ a, nb + 8 ≤ a → a % c.slotAlign = 0 →
            nb + 8 + padPointer (nb + 8) c.slotAlign ≤ a)) ∧
    (¬ needsBlock w →
      (allocate c src w).world.pool.currentBlock_ = w.pool.currentBlock_ ∧
      (allocate c src w).world.pool.lastSlot_ = w.pool.lastSlot_ ∧
      (allocate c src w).world.obtained = w.obtained) := by
  refine ⟨allocate_requests c src w, ⟨rfl, Nat.le_refl 0⟩, ?_, allocate_keeps_block c src w⟩
  intro nb hn hs
  refine ⟨_, allocate_grow c src w nb hn hs, rfl, rfl, rfl, rfl, rfl, ?_, ?_⟩
  · intro hcb
    exact readPtr_writePtr_same _ _ _ hcb
  · intro k hk ha hnb
    obtain ⟨hW, hpos⟩ := pow_two_dvd_word c.slotAlign k hk ha
    refine ⟨padPointer_aligned_of_dvd _ _ hnb hW hpos, ?_⟩
    intro a hle hal
    have e : nb + 8 + (a - (nb + 8)) = a := by omega
    have := padPointer_least_of_dvd (nb + 8) c.slotAlign (a - (nb + 8)) hnb hW hpos
      (by rw [e]; exact hal)
    omega

/-- Witness for C7: the first `allocate()` of the scenario obtains the block at
`4096` and returns `4104`. -/
theorem allocate_growth_linking_witness :
    ∃ w', allocate scenarioCfg scenarioSrc (World.fresh zeroMem) = .ok 4104 w' ∧
      w'.obtained = [4096] ∧
      w'.pool.currentBlock_ = 4096 ∧
      w'.pool.currentSlot_ = 4120 ∧
      w'.pool.lastSlot_ = 4137 ∧
      w'.pool.freeSlots_ = 0 ∧
      (0 < 2 ^ 64 → readPtr w'.mem 4096 = 0) ∧
      (∀ k, k ≤ 63 → 8 = 2 ^ k → 4096 + 8 < 2 ^ 64 →
        4104 % 8 = 0 ∧ ∀ a, 4096 + 8 ≤ a → a % 8 = 0 → 4104 ≤ a) := by
  have h := (allocate_growth_linking scenarioCfg scenarioSrc (World.fresh zeroMem)).2.2.1 4096
    ⟨rfl, Nat.le_refl 0⟩ rfl
  have e : padPointer (4096 + 8) scenarioCfg.slotAlign = 0 := by
    rw [padPointer_eval]; rfl
  rw [e] at h
  exact h

theorem allocateN_snoc (c : Config) (src : Nat → Option Nat) (n : Nat) (w w₁ w₂ : World)
    (ps : List Nat) (p : Nat) (h : allocateN c src n w = some (ps, w₁))
    (h2 : allocate c src w₁ = .ok p w₂) :
    allocateN c src (n + 1) w = some (ps ++ [p], w₂) := by
  induction n generalizing w ps with
  | zero =>
    simp only [allocateN, Option.some.injEq, Prod.mk.injEq] at h
    obtain ⟨rfl, rfl⟩ := h
    simp only [allocateN, h2, List.nil_append]
  | succ n ih =>
    rw [allocateN] at h
    cases ha : allocate c src w with
    | threw w' => simp only [ha] at h; exact absurd h (by simp)
    | ok q w' =>
      simp only [ha] at h
      cases hb : allocateN c src n w' with
      | none => simp only [hb] at h; exact absurd h (by simp)
      | some r =>
        obtain ⟨qs, w''⟩ := r
        simp only [hb, Option.some.injEq, Prod.mk.injEq] at h
        obtain ⟨rfl, rfl⟩ := h
        have := ih w' qs hb
        rw [allocateN, ha]
        simp only [this, List.cons_append]

theorem lifo_aux (c : Config) (src : Nat → Option Nat) (ps : List Nat) :
    ∀ w : World, w.pool.freeSlots_ < 2 ^ 64 →
    (∀ p ∈ ps, p ≠ 0 ∧ p < 2 ^ 64) →
    ps.Pairwise (fun p q => p + 8 ≤ q ∨ q + 8 ≤ p) →
    ∃ w', allocateN c src ps.length (deallocateAll ps w) = some (ps.reverse, w') ∧
      w'.pool = w.pool ∧ w'.requests = w.requests ∧ w'.obtained = w.obtained ∧
      ∀ a, (∀ p ∈ ps, a < p ∨ p + 8 ≤ a) → w'.mem a = w.mem a := by
  induction ps with
  | nil =>
    intro w _ _ _
    exact ⟨w, rfl, rfl, rfl, rfl, fun _ _ => rfl⟩
  | cons p rest ih =>
    intro w hf hps hpw
    have hp := hps p (List.mem_cons_self _ _)
    rw [List.pairwise_cons] at hpw
    have hd : deallocate p w =
        { w with mem := writePtr w.mem p w.pool.freeSlots_
                 pool := { w.pool with freeSlots_ := p } } := by
      unfold deallocate; rw [if_pos hp.1]
    obtain ⟨w₂, hrun, hpool, hreq, hobt, hframe⟩ :=
      ih (deallocate p w) (by rw [hd]; exact hp.2)
        (fun q hq => hps q (List.mem_cons_of_mem _ hq)) hpw.2
    have hfree : w₂.pool.freeSlots_ = p := by rw [hpool, hd]
    have hread : readPtr w₂.mem p = w.pool.freeSlots_ := by
      have e1 : readPtr w₂.mem p = readPtr (deallocate p w).mem p := by
        apply readPtr_congr
        intro a h1 h2
        apply hframe
        intro q hq
        have := hpw.1 q hq
        omega
      rw [e1, hd]
      exact readPtr_writePtr_same _ _ _ hf
    have halloc := allocate_free c src w₂ (by rw [hfree]; exact hp.1)
    rw [hfree] at halloc
    refine ⟨{ w₂ with pool := { w₂.pool with freeSlots_ := readPtr w₂.mem p } },
      ?_, ?_, ?_, ?_, ?_⟩
    · simp only [deallocateAll, List.length_cons, List.reverse_cons]
      exact allocateN_snoc c src rest.length _ w₂ _ rest.reverse p hrun halloc
    · simp only [hread, hpool, hd]
    · simp only [hreq, hd]
    · simp only [hobt, hd]
    · intro a ha
      simp only
      rw [hframe a (fun q hq => ha q (List.mem_cons_of_mem _ hq)), hd]
      exact writePtr_outside _ _ _ _ (ha p (List.mem_cons_self _ _))

/-- C1. LIFO reuse: for every pool state and every list `ps` of non-null,
pairwise non-overlapping slot addresses, `deallocate` of each element of `ps` in
order followed by `ps.length` calls of `allocate()` returns the addresses in
reverse order, makes no request to the memory source, and leaves all four pool
members as they were before the first `deallocate`. -/
theorem lifo_reuse (c : Config) (src : Nat → Option Nat) (w : World) (ps : List Nat)
    (hS : ptrSize ≤ c.slotSize)
    (hf : w.pool.freeSlots_ < 2 ^ 64)
    (hps : ∀ p ∈ ps, p ≠ 0 ∧ p < 2 ^ 64)
    (hpw : ps.Pairwise (fun p q => p + c.slotSize ≤ q ∨ q + c.slotSize ≤ p)) :
    ∃ w', allocateN c src ps.length (deallocateAll ps w) = some (ps.reverse, w') ∧
      w'.pool = w.pool ∧ w'.requests = w.requests ∧ w'.obtained = w.obtained := by
  have hpw8 : ps.Pairwise (fun p q => p + 8 ≤ q ∨ q + 8 ≤ p) := by
    refine hpw.imp ?_
    intro a b hab
    unfold ptrSize at hS
    omega
  obtain ⟨w', h1, h2, h3, h4, _⟩ := lifo_aux c src ps w hf hps hpw8
  exact ⟨w', h1, h2, h3, h4⟩

theorem scenario_returned :
    returned scenarioCfg scenarioSrc scenarioFive (World.fresh zeroMem)
      = [some 4104, some 4120, some 4136, some 8200, some 8216] := by
  simp [returned, scenarioFive, allocate, allocateBlock, allocateBlockAt, carve, scenarioCfg,
    scenarioSrc, World.fresh, Pool.fresh, Result.world, Result.addr, padPointer_eval, ptrSize]

theorem scenarioWorld_pool : scenarioWorld.pool = ⟨8192, 8232, 8233, 0⟩ := by
  simp [scenarioWorld, run, step, scenarioFive, allocate, allocateBlock, allocateBlockAt, carve,
    scenarioCfg, scenarioSrc, World.fresh, Pool.fresh, Result.world, padPointer_eval, ptrSize]

/-- Witness for C1, the end-to-end scenario: the five allocations return
`4104, 4120, 4136, 8200, 8216`; after `deallocate` of element 2 (`4120`) and
element 4 (`8200`) the next two allocations return `8200` and then `4120`. -/
theorem lifo_reuse_witness :
    returned scenarioCfg scenarioSrc scenarioFive (World.fresh zeroMem)
      = [some 4104, some 4120, some 4136, some 8200, some 8216] ∧
    ∃ w', allocateN scenarioCfg scenarioSrc 2 (deallocateAll [4120, 8200] scenarioWorld)
        = some ([8200, 4120], w') ∧
      w'.pool = scenarioWorld.pool ∧ w'.requests = scenarioWorld.requests ∧
      w'.obtained = scenarioWorld.obtained :=
  ⟨scenario_returned,
   lifo_reuse scenarioCfg scenarioSrc scenarioWorld [4120, 8200] (by decide)
    (by rw [scenarioWorld_pool]; norm_num) (by simp) (by simp [scenarioCfg])⟩

/-- C4 (behaviour of the code at the failing input). Move construction copies all
four members and resets only `currentBlock_` of the moved-from pool.  For the
pool `⟨4096, 4120, 4137, 0⟩` (one allocation made in the scenario) the
moved-from pool is `⟨0, 4120, 4137, 0⟩`, not a fresh pool, and its next
`allocate()` returns `4120`, inside the transferred block `[4096, 4152)`,
without any request to the memory source. -/
theorem moveConstruct_source_not_reset :
    (∀ A : Pool, (moveConstruct A).1 = A ∧ (moveConstruct A).2 = { A with currentBlock_ := 0 }) ∧
    (moveConstruct ⟨4096, 4120, 4137, 0⟩).2 = ⟨0, 4120, 4137, 0⟩ ∧
    (moveConstruct ⟨4096, 4120, 4137, 0⟩).2 ≠ Pool.fresh ∧
    (allocate scenarioCfg scenarioSrc
        ⟨(moveConstruct ⟨4096, 4120, 4137, 0⟩).2, zeroMem, [56], [4096]⟩).addr = some 4120 ∧
    (allocate scenarioCfg scenarioSrc
        ⟨(moveConstruct ⟨4096, 4120, 4137, 0⟩).2, zeroMem, [56], [4096]⟩).world.requests = [56] ∧
    4096 ≤ 4120 ∧ 4120 + scenarioCfg.slotSize ≤ 4096 + scenarioCfg.BlockSize := by
  refine ⟨fun A => ⟨rfl, rfl⟩, rfl, by decide, ?_, ?_, by decide, by decide⟩
  · simp [allocate, carve, moveConstruct, Result.addr]
  · simp [allocate, carve, moveConstruct, Result.world]

theorem cursorOK_step (c : Config) (src : Nat → Option Nat)
    (hfit : ∀ k b, src k = some b → BlockFits c b) (w : World) (op : Op)
    (h : CursorOK c w) : CursorOK c (step c src w op) := by
  cases op with
  | dealloc p =>
    simp only [step, deallocate]
    split
    · exact h
    · exact h
  | store a v => exact h
  | alloc =>
    simp only [step]
    by_cases hf : w.pool.freeSlots_ ≠ 0
    · rw [allocate_free c src w hf]; exact h
    · have hf0 : w.pool.freeSlots_ = 0 := by simpa using hf
      by_cases hc : w.pool.currentSlot_ < w.pool.lastSlot_
      · rw [allocate_carve c src w hf0 hc]
        unfold CursorOK at h ⊢
        simp only [carve, Result.world]
        cases ho : w.obtained with
        | nil => trivial
        | cons b bs =>
          rw [ho] at h
          simp only at h ⊢
          refine ⟨h.1, h.2.1, ?_⟩
          have := h.1
          have := h.2.1
          omega
      · have hn : needsBlock w := ⟨hf0, by omega⟩
        cases hs : src w.requests.length with
        | none => rw [allocate_fail c src w hn hs]; exact h
        | some nb =>
          rw [allocate_grow c src w nb hn hs]
          have hb := hfit _ nb hs
          unfold BlockFits at hb
          unfold CursorOK
          simp only [carve, Result.world, allocateBlockAt]
          refine ⟨by omega, trivial, by omega⟩

theorem cursorOK_run (c : Config) (src : Nat → Option Nat)
    (hfit : ∀ k b, src k = some b → BlockFits c b) (ops : List Op) :
    ∀ w, CursorOK c w → CursorOK c (run c src ops w) := by
  induction ops with
  | nil => intro w h; exact h
  | cons op ops ih => intro w h; exact ih _ (cursorOK_step c src hfit w op h)

theorem scenario_fits (k b : Nat) (_h : scenarioSrc k = some b) : BlockFits scenarioCfg b := by
  have := padPointer_lt (b + ptrSize) 8 (by norm_num)
  unfold BlockFits ptrSize scenarioCfg
  simp only [ptrSize] at this ⊢
  omega

/-- C6 (counterexample). In the scenario (56-byte blocks, 16-byte slots) the pool
holds one block after three allocations, with `currentSlot_ = 4152` and
`lastSlot_ = 4137`, so `currentSlot_ ≤ lastSlot_` is false.  With 16-byte blocks
and 16-byte slots the cursor is even `lastSlot_ + slotSize` or more after the
first allocation, because the first slot does not fit in the block. -/
theorem cursor_invariant_counterexample :
    ((run scenarioCfg scenarioSrc [.alloc, .alloc, .alloc] (World.fresh zeroMem)).obtained
        = [4096] ∧
      (run scenarioCfg scenarioSrc [.alloc, .alloc, .alloc] (World.fresh zeroMem)).pool.currentSlot_
        = 4152 ∧
      (run scenarioCfg scenarioSrc [.alloc, .alloc, .alloc] (World.fresh zeroMem)).pool.lastSlot_
        = 4137 ∧
      ¬ ((run scenarioCfg scenarioSrc [.alloc, .alloc, .alloc]
            (World.fresh zeroMem)).pool.currentSlot_
          ≤ (run scenarioCfg scenarioSrc [.alloc, .alloc, .alloc]
            (World.fresh zeroMem)).pool.lastSlot_)) ∧
    ((run tinyCfg scenarioSrc [.alloc] (World.fresh zeroMem)).obtained = [4096] ∧
      (run tinyCfg scenarioSrc [.alloc] (World.fresh zeroMem)).pool.currentSlot_ = 4120 ∧
      (run tinyCfg scenarioSrc [.alloc] (World.fresh zeroMem)).pool.lastSlot_ = 4097 ∧
      ¬ BlockFits tinyCfg 4096) := by
  simp [run, step, allocate, allocateBlock, allocateBlockAt, carve, scenarioCfg, tinyCfg,
    scenarioSrc, World.fresh, Pool.fresh, Result.world, padPointer_eval, ptrSize, BlockFits]

/-- C6 (amended). When the first slot of every block handed out by the memory
source fits in the block, every state reached from a fresh pool by `allocate()`,
`deallocate(p)` and client stores in which the pool holds a block satisfies
`currentSlot_ < lastSlot_ + slotSize`, that is `currentSlot_ ≤ lastSlot_ + slotSize - 1`:
the cursor never passes the end of the newest block. -/
theorem cursor_invariant_amended (c : Config) (src : Nat → Option Nat) (ops : List Op)
    (m : Memory) (hfit : ∀ k b, src k = some b → BlockFits c b)
    (hne : (run c src ops (World.fresh m)).obtained ≠ []) :
    (run c src ops (World.fresh m)).pool.currentSlot_
      < (run c src ops (World.fresh m)).pool.lastSlot_ + c.slotSize ∧
    ∃ b rest, (run c src ops (World.fresh m)).obtained = b :: rest ∧
      (run c src ops (World.fresh m)).pool.lastSlot_ = b + c.BlockSize - c.slotSize + 1 ∧
      (run c src ops (World.fresh m)).pool.currentSlot_ ≤ b + c.BlockSize := by
  have h := cursorOK_run c src hfit ops (World.fresh m) trivial
  unfold CursorOK at h
  cases ho : (run c src ops (World.fresh m)).obtained with
  | nil => exact absurd ho hne
  | cons b rest =>
    rw [ho] at h
    simp only at h
    refine ⟨?_, b, rest, rfl, h.2.1, h.2.2⟩
    have := h.1
    have := h.2.1
    have := h.2.2
    omega

/-- Witness for the amended C6 on the scenario after three allocations. -/
theorem cursor_invariant_amended_witness :
    (run scenarioCfg scenarioSrc [.alloc, .alloc, .alloc] (World.fresh zeroMem)).pool.currentSlot_
      < (run scenarioCfg scenarioSrc [.alloc, .alloc, .alloc] (World.fresh zeroMem)).pool.lastSlot_
        + scenarioCfg.slotSize ∧
    ∃ b rest, (run scenarioCfg scenarioSrc [.alloc, .alloc, .alloc] (World.fresh zeroMem)).obtained
        = b :: rest ∧
      (run scenarioCfg scenarioSrc [.alloc, .alloc, .alloc] (World.fresh zeroMem)).pool.lastSlot_
        = b + scenarioCfg.BlockSize - scenarioCfg.slotSize + 1 ∧
      (run scenarioCfg scenarioSrc [.alloc, .alloc, .alloc] (World.fresh zeroMem)).pool.currentSlot_
        ≤ b + scenarioCfg.BlockSize :=
  cursor_invariant_amended scenarioCfg scenarioSrc [.alloc, .alloc, .alloc] zeroMem scenario_fits
    (by simp [run, step, allocate, allocateBlock, allocateBlockAt, carve, scenarioCfg,
      scenarioSrc, World.fresh, Pool.fresh, Result.world, padPointer_eval, ptrSize])

theorem Chain.congr {m m' : Memory} : ∀ (bs : List Nat) (cur : Nat), Chain m cur bs →
    (∀ b ∈ bs, readPtr m' b = readPtr m b) → Chain m' cur bs := by
  intro bs
  induction bs with
  | nil => intro cur h _; exact h
  | cons b bs ih =>
    intro cur h hm
    obtain ⟨h1, h2, h3⟩ := h
    refine ⟨h1, h2, ?_⟩
    rw [hm b (List.mem_cons_self _ _)]
    exact ih _ h3 (fun b' hb' => hm b' (List.mem_cons_of_mem _ hb'))

theorem Chain.head_lt {m : Memory} {cur : Nat} {bs : List Nat} (h : Chain m cur bs)
    (hb : ∀ b ∈ bs, b < 2 ^ 64) : cur < 2 ^ 64 := by
  cases bs with
  | nil => have : cur = 0 := h; rw [this]; norm_num
  | cons b bs => rw [h.1]; exact hb b (List.mem_cons_self _ _)

theorem destroyLoop_nil (c : Config) (scribble m : Memory) (fuel : Nat) :
    destroyLoop c scribble fuel m 0 = some [] := by
  cases fuel <;> simp [destroyLoop]

theorem destroyLoop_chain (c : Config) (scribble : Memory) (hB : ptrSize ≤ c.BlockSize) :
    ∀ (bs : List Nat) (m : Memory) (cur fuel : Nat), Chain m cur bs → bs.Pairwise (Apart c) →
      bs.length ≤ fuel → destroyLoop c scribble fuel m cur = some bs := by
  intro bs
  induction bs with
  | nil =>
    intro m cur fuel h _ _
    have : cur = 0 := h
    rw [this]
    exact destroyLoop_nil c scribble m fuel
  | cons b bs ih =>
    intro m cur fuel h hp hfuel
    obtain ⟨h1, h2, h3⟩ := h
    rw [List.pairwise_cons] at hp
    cases fuel with
    | zero => simp at hfuel
    | succ fuel =>
      rw [h1, destroyLoop, if_pos h2]
      have hc : Chain (release c scribble m b) (readPtr m b) bs := by
        refine Chain.congr bs _ h3 ?_
        intro b' hb'
        apply readPtr_congr
        intro a ha1 ha2
        have := hp.1 b' hb'
        unfold Apart at this
        unfold ptrSize at hB
        unfold release
        rw [if_neg (by omega)]
      rw [ih _ _ fuel hc hp.2 (by simpa using hfuel)]
      rfl

theorem chainInv_obtained_lt (c : Config) (src : Nat → Option Nat) (hsrc : SourceOK c src)
    (w : World) (h : ChainInv c src w) : ∀ b ∈ w.obtained, b ≠ 0 ∧ b + c.BlockSize ≤ 2 ^ 64 := by
  intro b hb
  obtain ⟨k, _, hk⟩ := h.2.1 b hb
  exact hsrc.1 k b hk

theorem chainInv_mem_update (c : Config) (src : Nat → Option Nat) (w : World) (m' : Memory)
    (pool' : Pool) (h : ChainInv c src w) (hcb : pool'.currentBlock_ = w.pool.currentBlock_)
    (hm : ∀ b ∈ w.obtained, ∀ a, b ≤ a → a < b + 8 → m' a = w.mem a) :
    ChainInv c src { w with mem := m', pool := pool' } := by
  refine ⟨?_, h.2.1, h.2.2⟩
  simp only [hcb]
  exact Chain.congr _ _ h.1 (fun b hb => readPtr_congr _ _ b (hm b hb))

theorem chainInv_grow (c : Config) (src : Nat → Option Nat) (hsrc : SourceOK c src)
    (hB : ptrSize ≤ c.BlockSize) (w : World) (nb : Nat) (h : ChainInv c src w)
    (hs : src w.requests.length = some nb) : ChainInv c src (allocateBlockAt c nb w) := by
  have hlt := chainInv_obtained_lt c src hsrc w h
  have hap : ∀ b ∈ w.obtained, Apart c nb b := by
    intro b hb
    obtain ⟨k, hk, hsk⟩ := h.2.1 b hb
    exact hsrc.2 _ k nb b (by omega) hs hsk
  unfold ptrSize at hB
  refine ⟨?_, ?_, ?_⟩
  · refine ⟨rfl, (hsrc.1 _ nb hs).1, ?_⟩
    simp only [allocateBlockAt]
    rw [readPtr_writePtr_same _ _ _
      (Chain.head_lt h.1 (fun b hb => by have := (hlt b hb).2; omega))]
    refine Chain.congr _ _ h.1 ?_
    intro b hb
    have := hap b hb
    unfold Apart at this
    exact readPtr_writePtr_disjoint _ _ _ _ (by omega)
  · intro b hb
    simp only [allocateBlockAt, List.mem_cons, List.length_cons] at hb ⊢
    rcases hb with rfl | hb
    · exact ⟨_, Nat.lt_succ_self _, hs⟩
    · obtain ⟨k, hk, hsk⟩ := h.2.1 b hb
      exact ⟨k, by omega, hsk⟩
  · simp only [allocateBlockAt, List.pairwise_cons]
    exact ⟨hap, h.2.2⟩

theorem chainInv_carve (c : Config) (src : Nat → Option Nat) (w : World)
    (h : ChainInv c src w) : ChainInv c src (carve c w).world := h

theorem chainInv_allocate (c : Config) (src : Nat → Option Nat) (hsrc : SourceOK c src)
    (hB : ptrSize ≤ c.BlockSize) (w : World) (h : ChainInv c src w) :
    ChainInv c src (allocate c src w).world := by
  by_cases hf : w.pool.freeSlots_ ≠ 0
  · rw [allocate_free c src w hf]; exact h
  · have hf0 : w.pool.freeSlots_ = 0 := by simpa using hf
    by_cases hc : w.pool.currentSlot_ < w.pool.lastSlot_
    · rw [allocate_carve c src w hf0 hc]; exact h
    · have hn : needsBlock w := ⟨hf0, by omega⟩
      cases hs : src w.requests.length with
      | none =>
        rw [allocate_fail c src w hn hs]
        refine ⟨h.1, ?_, h.2.2⟩
        intro b hb
        obtain ⟨k, hk, hsk⟩ := h.2.1 b hb
        exact ⟨k, by simp only [Result.world, List.length_cons]; omega, hsk⟩
      | some nb =>
        rw [allocate_grow c src w nb hn hs]
        exact chainInv_carve c src _ (chainInv_grow c src hsrc hB w nb h hs)

theorem chainInv_step (c : Config) (src : Nat → Option Nat) (hsrc : SourceOK c src)
    (hB : ptrSize ≤ c.BlockSize) (w : World) (op : Op) (h : ChainInv c src w)
    (hop : op.sparesBackLinks w) : ChainInv c src (step c src w op) := by
  cases op with
  | alloc => exact chainInv_allocate c src hsrc hB w h
  | dealloc p =>
    simp only [step, deallocate]
    split
    · rename_i hp
      have hop' : ∀ b ∈ w.obtained, p + ptrSize ≤ b ∨ b + ptrSize ≤ p := by
        rcases hop with h0 | h1
        · exact absurd h0 hp
        · exact h1
      refine chainInv_mem_update c src w _ _ h rfl ?_
      intro b hb a h1 h2
      have := hop' b hb
      unfold ptrSize at this
      exact writePtr_outside _ _ _ _ (by omega)
    · exact h
  | store a v =>
    simp only [step]
    refine chainInv_mem_update c src w _ w.pool h rfl ?_
    intro b hb x h1 h2
    have := hop b hb
    unfold ptrSize at this
    rw [if_neg (by omega)]

theorem chainInv_run (c : Config) (src : Nat → Option Nat) (hsrc : SourceOK c src)
    (hB : ptrSize ≤ c.BlockSize) (ops : List Op) :
    ∀ w, ChainInv c src w → SparesBackLinks c src ops w → ChainInv c src (run c src ops w) := by
  induction ops with
  | nil => intro w h _; exact h
  | cons op ops ih =>
    intro w h hs
    exact ih _ (chainInv_step c src hsrc hB w op h hs.1) hs.2

theorem chainInv_fresh (c : Config) (src : Nat → Option Nat) (m : Memory) :
    ChainInv c src (World.fresh m) :=
  ⟨rfl, fun _ hb => absurd hb (List.not_mem_nil _), List.Pairwise.nil⟩

theorem apart_nodup (c : Config) (hB : ptrSize ≤ c.BlockSize) (bs : List Nat)
    (h : bs.Pairwise (Apart c)) : bs.Nodup := by
  refine h.imp ?_
  intro a b hab
  unfold Apart at hab
  unfold ptrSize at hB
  omega

/-- C3. Teardown completeness: for every sequence of `allocate()`,
`deallocate(p)` and client stores applied to a fresh pool in which no store hits
a back-link word, the destructor (given at least as many loop iterations as
blocks were handed out) passes to `operator delete` exactly the blocks handed
out by the memory source, newest first and oldest last, each once, and stops;
this holds whatever the free list and the live slots are. -/
theorem teardown_complete (c : Config) (src : Nat → Option Nat) (scribble m : Memory)
    (ops : List Op) (fuel : Nat) (hsrc : SourceOK c src) (hB : ptrSize ≤ c.BlockSize)
    (hops : SparesBackLinks c src ops (World.fresh m))
    (hfuel : (run c src ops (World.fresh m)).obtained.length ≤ fuel) :
    destructor c scribble fuel (run c src ops (World.fresh m))
      = some (run c src ops (World.fresh m)).obtained ∧
    (run c src ops (World.fresh m)).obtained.Nodup ∧
    ∀ b ∈ (run c src ops (World.fresh m)).obtained,
      ∃ k, k < (run c src ops (World.fresh m)).requests.length ∧ src k = some b := by
  have h := chainInv_run c src hsrc hB ops _ (chainInv_fresh c src m) hops
  exact ⟨destroyLoop_chain c scribble hB _ _ _ fuel h.1 h.2.2 hfuel,
    apart_nodup c hB _ h.2.2, h.2.1⟩

theorem scenario_sourceOK : SourceOK scenarioCfg scenarioSrc := by
  unfold SourceOK scenarioSrc Apart
  simp only [show scenarioCfg.BlockSize = 56 from rfl]
  refine ⟨?_, ?_⟩
  · intro k b h
    split at h
    · simp only [Option.some.injEq] at h
      omega
    · exact absurd h (by simp)
  · intro i j bi bj hij hi hj
    split at hi
    · split at hj
      · simp only [Option.some.injEq] at hi hj
        omega
      · exact absurd hj (by simp)
    · exact absurd hi (by simp)

theorem scenario_run_eval :
    (run scenarioCfg scenarioSrc scenarioOps (World.fresh zeroMem)).obtained = [8192, 4096] ∧
    (run scenarioCfg scenarioSrc scenarioOps (World.fresh zeroMem)).pool
      = ⟨8192, 8232, 8233, 0⟩ ∧
    returned scenarioCfg scenarioSrc scenarioOps (World.fresh zeroMem)
      = [some 4104, some 4120, some 4136, some 8200, some 8216, some 8200, some 4120] ∧
    SparesBackLinks scenarioCfg scenarioSrc scenarioOps (World.fresh zeroMem) := by
  simp [run, returned, step, scenarioOps, allocate, allocateBlock, allocateBlockAt, carve,
    scenarioCfg, deallocate, scenarioSrc, World.fresh, Pool.fresh, Result.world, Result.addr,
    padPointer_eval, ptrSize, readPtr_writePtr_same, readPtr_writePtr_disjoint, SparesBackLinks,
    Op.sparesBackLinks]

/-- Witness for C3, the end-to-end scenario: five allocations with three slots
per block obtain the blocks `4096` and `8192`; after the two `deallocate` calls
and two further allocations the destructor makes exactly two `operator delete`
calls, on `8192` and then on `4096`. -/
theorem teardown_complete_witness :
    destructor scenarioCfg zeroMem 2 (run scenarioCfg scenarioSrc scenarioOps (World.fresh zeroMem))
      = some [8192, 4096] ∧
    (run scenarioCfg scenarioSrc scenarioOps (World.fresh zeroMem)).obtained.Nodup ∧
    ∀ b ∈ (run scenarioCfg scenarioSrc scenarioOps (World.fresh zeroMem)).obtained,
      ∃ k, k < (run scenarioCfg scenarioSrc scenarioOps (World.fresh zeroMem)).requests.length ∧
        scenarioSrc k = some b := by
  have h := teardown_complete scenarioCfg scenarioSrc zeroMem zeroMem scenarioOps 2
    scenario_sourceOK (by decide) scenario_run_eval.2.2.2
    (by rw [scenario_run_eval.1]; exact Nat.le_refl 2)
  rw [scenario_run_eval.1] at h
  rw [scenario_run_eval.1]
  exact h

theorem apart_symm (c : Config) : Symmetric (Apart c) := by
  intro a b h
  unfold Apart at h ⊢
  omega

theorem grid_apart (S f p q : Nat) (hp : f ≤ p) (hq : f ≤ q) (dp : S ∣ p - f) (dq : S ∣ q - f)
    (hne : p ≠ q) : p + S ≤ q ∨ q + S ≤ p := by
  obtain ⟨i, hi⟩ := dp
  obtain ⟨j, hj⟩ := dq
  rcases Nat.lt_trichotomy i j with h | h | h
  · left
    have := Nat.mul_le_mul_left S (Nat.succ_le_of_lt h)
    rw [Nat.mul_succ] at this
    omega
  · subst h
    omega
  · right
    have := Nat.mul_le_mul_left S (Nat.succ_le_of_lt h)
    rw [Nat.mul_succ] at this
    omega

theorem env_sizes (c : Config) (src : Nat → Option Nat) (henv : Env c src) (w : World)
    (hch : ChainInv c src w) :
    ∀ b ∈ w.obtained, b ≠ 0 ∧ b + c.BlockSize ≤ 2 ^ 64 ∧
      firstSlot c b + c.slotSize ≤ b + c.BlockSize ∧ b + 8 ≤ firstSlot c b ∧
      8 ≤ c.slotSize := by
  intro b hb
  obtain ⟨k, _, hk⟩ := hch.2.1 b hb
  have h1 := henv.1.1 k b hk
  have h2 := henv.2.2 k b hk
  have h3 := henv.2.1
  unfold BlockFits at h2
  unfold firstSlot
  unfold ptrSize at *
  exact ⟨h1.1, h1.2, by omega, by omega, h3⟩

theorem isSlot_apart (c : Config) (src : Nat → Option Nat) (henv : Env c src) (w : World)
    (hch : ChainInv c src w) (p q : Nat) (hp : IsSlot c w p) (hq : IsSlot c w q) (hne : p ≠ q) :
    p + c.slotSize ≤ q ∨ q + c.slotSize ≤ p := by
  obtain ⟨b, hb, p1, p2, p3, _⟩ := hp
  obtain ⟨b', hb', q1, q2, q3, _⟩ := hq
  have eb := env_sizes c src henv w hch b hb
  have eb' := env_sizes c src henv w hch b' hb'
  by_cases hbb : b = b'
  · subst hbb
    exact grid_apart _ _ p q p1 q1 p3 q3 hne
  · have := hch.2.2.forall (apart_symm c) hb hb' hbb
    unfold Apart at this
    omega

theorem isSlot_backlink (c : Config) (src : Nat → Option Nat) (henv : Env c src) (w : World)
    (hch : ChainInv c src w) (p : Nat) (hp : IsSlot c w p) :
    p ≠ 0 ∧ p + c.slotSize ≤ 2 ^ 64 ∧
    ∀ b' ∈ w.obtained, p + c.slotSize ≤ b' ∨ b' + 8 ≤ p := by
  obtain ⟨b, hb, p1, p2, p3, _⟩ := hp
  have eb := env_sizes c src henv w hch b hb
  refine ⟨by omega, by omega, ?_⟩
  intro b' hb'
  have eb' := env_sizes c src henv w hch b' hb'
  by_cases hbb : b = b'
  · subst hbb
    omega
  · have := hch.2.2.forall (apart_symm c) hb hb' hbb
    unfold Apart at this
    omega

theorem inv_deallocate (c : Config) (src : Nat → Option Nat) (henv : Env c src) (w : World)
    (live free : List Nat) (p : Nat) (h : Inv c src w live free) (hp : p ∈ live) :
    Inv c src (deallocate p w) (live.erase p) (p :: free) := by
  obtain ⟨hch, hcur, hfree, hnd, hsl⟩ := h
  have hS : 8 ≤ c.slotSize := henv.2.1
  have hps := hsl p (List.mem_append_left _ hp)
  obtain ⟨hp0, hplt, hbl⟩ := isSlot_backlink c src henv w hch p hps
  have hd : deallocate p w =
      { w with mem := writePtr w.mem p w.pool.freeSlots_
               pool := { w.pool with freeSlots_ := p } } := by
    unfold deallocate; rw [if_pos hp0]
  have hperm : (live.erase p ++ p :: free).Perm (live ++ free) :=
    List.perm_middle.trans ((List.perm_cons_erase hp).append_right free).symm
  have hflt : w.pool.freeSlots_ < 2 ^ 64 := by
    refine Chain.head_lt hfree ?_
    intro q hq
    have := (isSlot_backlink c src henv w hch q (hsl q (List.mem_append_right _ hq))).2.1
    omega
  rw [hd]
  refine ⟨?_, hcur, ?_, hperm.nodup_iff.2 hnd, ?_⟩
  · refine chainInv_mem_update c src w _ _ hch rfl ?_
    intro b hb a h1 h2
    have := hbl b hb
    exact writePtr_outside _ _ _ _ (by omega)
  · refine ⟨rfl, hp0, ?_⟩
    simp only
    rw [readPtr_writePtr_same _ _ _ hflt]
    refine Chain.congr _ _ hfree ?_
    intro q hq
    have hne : p ≠ q := by
      intro e
      subst e
      exact (List.nodup_append.1 hnd).2.2 hp hq
    have := isSlot_apart c src henv w hch p q hps (hsl q (List.mem_append_right _ hq)) hne
    exact readPtr_writePtr_disjoint _ _ _ _ (by omega)
  · intro q hq
    exact hsl q (hperm.mem_iff.1 hq)

theorem inv_allocate_free (c : Config) (src : Nat → Option Nat) (w : World)
    (live free : List Nat) (h : Inv c src w live free) (hf : w.pool.freeSlots_ ≠ 0) :
    ∃ rest, free = w.pool.freeSlots_ :: rest ∧
      Inv c src { w with pool := { w.pool with freeSlots_ := readPtr w.mem w.pool.freeSlots_ } }
        (w.pool.freeSlots_ :: live) rest := by
  obtain ⟨hch, hcur, hfree, hnd, hsl⟩ := h
  cases free with
  | nil => exact absurd hfree hf
  | cons q rest =>
    obtain ⟨h1, h2, h3⟩ := hfree
    rw [h1]
    have hperm : (q :: live ++ rest).Perm (live ++ q :: rest) := List.perm_middle.symm
    refine ⟨rest, rfl, hch, hcur, h3, hperm.nodup_iff.2 hnd, ?_⟩
    intro x hx
    exact hsl x (hperm.mem_iff.1 hx)

theorem inv_carve (c : Config) (src : Nat → Option Nat) (henv : Env c src) (w : World)
    (live free : List Nat) (h : Inv c src w live free)
    (hc : w.pool.currentSlot_ < w.pool.lastSlot_) :
    Inv c src (carve c w).world (w.pool.currentSlot_ :: live) free := by
  obtain ⟨hch, hcur, hfree, hnd, hsl⟩ := h
  have hS : 8 ≤ c.slotSize := henv.2.1
  unfold CursorInv at hcur
  cases ho : w.obtained with
  | nil =>
    rw [ho] at hcur
    simp only at hcur
    omega
  | cons b bs =>
    rw [ho] at hcur
    simp only at hcur
    obtain ⟨c1, c2, c3, c4⟩ := hcur
    have hb : b ∈ w.obtained := by rw [ho]; exact List.mem_cons_self _ _
    have eb := env_sizes c src henv w hch b hb
    have hcb : w.pool.currentBlock_ = b := by
      have := hch.1
      rw [ho] at this
      exact this.1
    have hnew : IsSlot c (carve c w).world w.pool.currentSlot_ :=
      ⟨b, hb, c2, by omega, c4, fun _ => Nat.le_refl _⟩
    have hold : ∀ q ∈ live ++ free, IsSlot c (carve c w).world q ∧ q ≠ w.pool.currentSlot_ := by
      intro q hq
      obtain ⟨b', hb', q1, q2, q3, q4⟩ := hsl q hq
      have eb' := env_sizes c src henv w hch b' hb'
      refine ⟨⟨b', hb', q1, q2, q3, ?_⟩, ?_⟩
      · intro e
        have := q4 e
        simp only [carve, Result.world]
        omega
      · by_cases hbb : b' = b
        · have := q4 (by rw [hcb]; exact hbb)
          omega
        · have := hch.2.2.forall (apart_symm c) hb' hb hbb
          unfold Apart at this
          omega
    refine ⟨hch, ?_, hfree, ?_, ?_⟩
    · unfold CursorInv
      simp only [carve, Result.world]
      rw [ho]
      simp only
      refine ⟨c1, by omega, by omega, ?_⟩
      have e : w.pool.currentSlot_ + c.slotSize - firstSlot c b
          = (w.pool.currentSlot_ - firstSlot c b) + c.slotSize := by omega
      rw [e]
      exact Dvd.dvd.add c4 (dvd_refl _)
    · rw [List.cons_append, List.nodup_cons]
      exact ⟨fun hmem => (hold _ hmem).2 rfl, hnd⟩
    · intro q hq
      rw [List.cons_append, List.mem_cons] at hq
      rcases hq with rfl | hq
      · exact hnew
      · exact (hold q hq).1

theorem inv_grow (c : Config) (src : Nat → Option Nat) (henv : Env c src) (w : World)
    (live free : List Nat) (nb : Nat) (h : Inv c src w live free)
    (hf : w.pool.freeSlots_ = 0) (hs : src w.requests.length = some nb) :
    Inv c src (allocateBlockAt c nb w) live free ∧
    (allocateBlockAt c nb w).pool.currentSlot_ < (allocateBlockAt c nb w).pool.lastSlot_ := by
  obtain ⟨hch, hcur, hfree, hnd, hsl⟩ := h
  have hfit := henv.2.2 _ nb hs
  have hS : 8 ≤ c.slotSize := henv.2.1
  have hfit' := hfit
  unfold BlockFits ptrSize at hfit'
  have hB : ptrSize ≤ c.BlockSize := by unfold ptrSize; omega
  have hfree0 : free = [] := by
    cases free with
    | nil => rfl
    | cons q rest =>
      obtain ⟨h1, h2, _⟩ := hfree
      exact absurd (h1.symm.trans hf) h2
  subst hfree0
  have hap : ∀ b ∈ w.obtained, Apart c nb b := by
    intro b hb
    obtain ⟨k, hk, hsk⟩ := hch.2.1 b hb
    exact henv.1.2 _ k nb b (by omega) hs hsk
  refine ⟨⟨chainInv_grow c src henv.1 hB w nb hch hs, ?_, ?_, hnd, ?_⟩, ?_⟩
  · unfold CursorInv
    simp only [allocateBlockAt, firstSlot, ptrSize]
    refine ⟨trivial, Nat.le_refl _, by omega, ?_⟩
    rw [Nat.sub_self]
    exact dvd_zero _
  · simp only [allocateBlockAt]
    exact hf
  · intro q hq
    obtain ⟨b, hb, q1, q2, q3, _⟩ := hsl q hq
    refine ⟨b, List.mem_cons_of_mem _ hb, q1, q2, q3, ?_⟩
    intro e
    have := hap b hb
    unfold Apart at this
    simp only [allocateBlockAt] at e
    omega
  · simp only [allocateBlockAt, ptrSize]
    omega

theorem inv_requests (c : Config) (src : Nat → Option Nat) (w : World)
    (live free : List Nat) (x : Nat) (h : Inv c src w live free) :
    Inv c src { w with requests := x :: w.requests } live free := by
  obtain ⟨hch, hcur, hfree, hnd, hsl⟩ := h
  refine ⟨⟨hch.1, ?_, hch.2.2⟩, hcur, hfree, hnd, hsl⟩
  intro b hb
  obtain ⟨k, hk, hsk⟩ := hch.2.1 b hb
  exact ⟨k, by simp only [List.length_cons]; omega, hsk⟩

theorem inv_store (c : Config) (src : Nat → Option Nat) (henv : Env c src) (w : World)
    (live free : List Nat) (a v : Nat) (h : Inv c src w live free)
    (ha : ∃ p ∈ live, p ≤ a ∧ a < p + c.slotSize) :
    Inv c src { w with mem := fun x => if x = a then v else w.mem x } live free := by
  obtain ⟨hch, hcur, hfree, hnd, hsl⟩ := h
  obtain ⟨p, hp, a1, a2⟩ := ha
  have hS : 8 ≤ c.slotSize := henv.2.1
  have hps := hsl p (List.mem_append_left _ hp)
  obtain ⟨hp0, hplt, hbl⟩ := isSlot_backlink c src henv w hch p hps
  refine ⟨?_, hcur, ?_, hnd, hsl⟩
  · refine chainInv_mem_update c src w _ w.pool hch rfl ?_
    intro b hb x h1 h2
    have := hbl b hb
    rw [if_neg (by omega)]
  · refine Chain.congr _ _ hfree ?_
    intro q hq
    have hne : p ≠ q := by
      intro e
      subst e
      exact (List.nodup_append.1 hnd).2.2 hp hq
    have := isSlot_apart c src henv w hch p q hps (hsl q (List.mem_append_right _ hq)) hne
    apply readPtr_congr
    intro x h1 h2
    simp only
    rw [if_neg (by omega)]

theorem inv_allocate (c : Config) (src : Nat → Option Nat) (henv : Env c src) (w : World)
    (live free : List Nat) (h : Inv c src w live free) :
    ∃ free', Inv c src (allocate c src w).world (liveStep c src w live .alloc) free' := by
  unfold liveStep
  by_cases hf : w.pool.freeSlots_ ≠ 0
  · rw [allocate_free c src w hf]
    obtain ⟨rest, _, hinv⟩ := inv_allocate_free c src w live free h hf
    exact ⟨rest, hinv⟩
  · have hf0 : w.pool.freeSlots_ = 0 := by simpa using hf
    by_cases hc : w.pool.currentSlot_ < w.pool.lastSlot_
    · rw [allocate_carve c src w hf0 hc]
      exact ⟨free, inv_carve c src henv w live free h hc⟩
    · have hn : needsBlock w := ⟨hf0, by omega⟩
      cases hs : src w.requests.length with
      | none =>
        rw [allocate_fail c src w hn hs]
        exact ⟨free, inv_requests c src w live free _ h⟩
      | some nb =>
        rw [allocate_grow c src w nb hn hs]
        obtain ⟨hinv, hlt⟩ := inv_grow c src henv w live free nb h hf0 hs
        exact ⟨free, inv_carve c src henv _ live free hinv hlt⟩

theorem inv_step (c : Config) (src : Nat → Option Nat) (henv : Env c src) (w : World)
    (live free : List Nat) (op : Op) (h : Inv c src w live free) (hop : op.inContract c live) :
    ∃ free', Inv c src (step c src w op) (liveStep c src w live op) free' := by
  cases op with
  | alloc => exact inv_allocate c src henv w live free h
  | dealloc p =>
    rcases hop with h0 | hp
    · subst h0
      have hnot : 0 ∉ live := by
        intro hmem
        exact (isSlot_backlink c src henv w h.1 0
          (h.2.2.2.2 0 (List.mem_append_left _ hmem))).1 rfl
      refine ⟨free, ?_⟩
      simp only [step, liveStep, deallocate, List.erase_of_not_mem hnot]
      exact h
    · exact ⟨p :: free, inv_deallocate c src henv w live free p h hp⟩
  | store a v => exact ⟨free, inv_store c src henv w live free a v h hop⟩

theorem inv_run (c : Config) (src : Nat → Option Nat) (henv : Env c src) (ops : List Op) :
    ∀ (w : World) (live free : List Nat), Inv c src w live free → InContract c src ops w live →
      ∃ free', Inv c src (run c src ops w) (liveAfter c src ops w live) free' := by
  induction ops with
  | nil => intro w live free h _; exact ⟨free, h⟩
  | cons op ops ih =>
    intro w live free h hc
    obtain ⟨free', h'⟩ := inv_step c src henv w live free op h hc.1
    exact ih _ _ free' h' hc.2

theorem inv_fresh (c : Config) (src : Nat → Option Nat) (m : Memory) :
    Inv c src (World.fresh m) [] [] :=
  ⟨chainInv_fresh c src m, ⟨rfl, rfl⟩, rfl, List.nodup_nil,
    fun _ hp => absurd hp (List.not_mem_nil _)⟩

theorem allocate_frame (c : Config) (src : Nat → Option Nat) (w : World) :
    (allocate c src w).world.mem = w.mem ∨
    ∃ nb, src w.requests.length = some nb ∧
      (allocate c src w).world.obtained = nb :: w.obtained ∧
      ∀ a, a < nb ∨ nb + ptrSize ≤ a → (allocate c src w).world.mem a = w.mem a := by
  by_cases hf : w.pool.freeSlots_ ≠ 0
  · rw [allocate_free c src w hf]; exact Or.inl rfl
  · have hf0 : w.pool.freeSlots_ = 0 := by simpa using hf
    by_cases hc : w.pool.currentSlot_ < w.pool.lastSlot_
    · rw [allocate_carve c src w hf0 hc]; exact Or.inl rfl
    · have hn : needsBlock w := ⟨hf0, by omega⟩
      cases hs : src w.requests.length with
      | none => rw [allocate_fail c src w hn hs]; exact Or.inl rfl
      | some nb =>
        rw [allocate_grow c src w nb hn hs]
        refine Or.inr ⟨nb, rfl, rfl, ?_⟩
        intro a ha
        unfold ptrSize at ha
        exact writePtr_outside _ _ _ _ ha

theorem scenario_env : Env scenarioCfg scenarioSrc :=
  ⟨scenario_sourceOK, by decide, scenario_fits⟩

theorem pad_le_of_aligned (b A : Nat) (hb : 8 ∣ b) (hA8 : 8 ∣ A) (hpos : 0 < A) :
    padPointer (b + 8) A + 8 ≤ A := by
  have hlt := padPointer_lt (b + 8) A hpos
  have hdvd : 8 ∣ padPointer (b + 8) A := by
    rw [padPointer_eval]
    refine (Nat.dvd_mod_iff hA8).2 ?_
    omega
  omega

theorem fits_of_aligned (c : Config) (b : Nat) (hb : 8 ∣ b) (hA8 : 8 ∣ c.slotAlign)
    (hSA : c.slotAlign ∣ c.slotSize) (hS : 0 < c.slotSize)
    (hB : 2 * c.slotSize ≤ c.BlockSize) : BlockFits c b := by
  have hApos : 0 < c.slotAlign := Nat.pos_of_dvd_of_pos hSA hS
  have hle : c.slotAlign ≤ c.slotSize := Nat.le_of_dvd hS hSA
  have := pad_le_of_aligned b c.slotAlign hb hA8 hApos
  unfold BlockFits ptrSize
  omega

theorem eight_dvd_pow (A k : Nat) (hA : A = 2 ^ k) (hA8 : 8 ≤ A) : 8 ∣ A := by
  subst hA
  have hk : 3 ≤ k := by
    by_contra h
    have h2 : k ≤ 2 := by omega
    have := Nat.pow_le_pow_right (show 0 < 2 by norm_num) h2
    omega
  exact pow_dvd_pow 2 hk

theorem env_of_aligned (c : Config) (src : Nat → Option Nat) (hsrc : SourceOK c src)
    (hal : ∀ k b, src k = some b → 8 ∣ b) (hA8 : 8 ∣ c.slotAlign)
    (hSA : c.slotAlign ∣ c.slotSize) (hS : 8 ≤ c.slotSize)
    (hB : 2 * c.slotSize ≤ c.BlockSize) : Env c src :=
  ⟨hsrc, hS, fun k b hk => fits_of_aligned c b (hal k b hk) hA8 hSA (by omega) hB⟩

theorem scenario_aligned (k b : Nat) (h : scenarioSrc k = some b) : 8 ∣ b := by
  unfold scenarioSrc at h
  split at h
  · simp only [Option.some.injEq] at h
    omega
  · exact absurd h (by simp)

/-- C8. Growth preserves live contents.  The pool is instantiated as its design
requires: `operator new` hands out non-null, pairwise disjoint, 8-aligned
blocks, the slot alignment is a multiple of 8 dividing the slot size, a slot
holds a pointer, and `BlockSize ≥ 2 * slotSize`.  In every state `w` reached
from a fresh pool by `allocate()`, in-contract `deallocate` and client stores
into held slots, an `allocate()` that needs a block and is given block `nb`
succeeds, returns an address whose slot lies inside `nb` after the back-link,
changes no byte of any block obtained before, and so leaves every held slot as
it was.  In every state whatever, `allocate()` changes no byte outside the
back-link word of a block it has just obtained. -/
theorem growth_preserves_live (c : Config) (src : Nat → Option Nat) (ops : List Op)
    (m : Memory) (w : World) (nb : Nat) (hsrc : SourceOK c src)
    (hal : ∀ k b, src k = some b → 8 ∣ b) (hA8 : 8 ∣ c.slotAlign)
    (hSA : c.slotAlign ∣ c.slotSize) (hS : 8 ≤ c.slotSize)
    (hB : 2 * c.slotSize ≤ c.BlockSize)
    (hw : w = run c src ops (World.fresh m))
    (hops : InContract c src ops (World.fresh m) [])
    (hn : needsBlock w) (hs : src w.requests.length = some nb) :
    (∃ p w', allocate c src w = .ok p w' ∧
      w'.obtained = nb :: w.obtained ∧
      nb + ptrSize ≤ p ∧ p + c.slotSize ≤ nb + c.BlockSize ∧
      (∀ b ∈ w.obtained, ∀ a, b ≤ a → a < b + c.BlockSize → w'.mem a = w.mem a) ∧
      (∀ q ∈ liveAfter c src ops (World.fresh m) [],
        ∀ a, q ≤ a → a < q + c.slotSize → w'.mem a = w.mem a)) ∧
    (∀ w₀ : World, (allocate c src w₀).world.mem = w₀.mem ∨
      ∃ nb₀, src w₀.requests.length = some nb₀ ∧
        (allocate c src w₀).world.obtained = nb₀ :: w₀.obtained ∧
        ∀ a, a < nb₀ ∨ nb₀ + ptrSize ≤ a → (allocate c src w₀).world.mem a = w₀.mem a) := by
  have henv := env_of_aligned c src hsrc hal hA8 hSA hS hB
  refine ⟨?_, allocate_frame c src⟩
  obtain ⟨free, hinv⟩ := inv_run c src henv ops _ [] [] (inv_fresh c src m) hops
  rw [← hw] at hinv
  obtain ⟨hch, _, _, _, hsl⟩ := hinv
  have hfit := henv.2.2 _ nb hs
  unfold BlockFits ptrSize at hfit
  have hblock : ∀ b ∈ w.obtained, ∀ a, b ≤ a → a < b + c.BlockSize →
      writePtr w.mem nb w.pool.currentBlock_ a = w.mem a := by
    intro b hb a h1 h2
    obtain ⟨k, hk, hsk⟩ := hch.2.1 b hb
    have := henv.1.2 _ k nb b (by omega) hs hsk
    unfold Apart at this
    exact writePtr_outside _ _ _ _ (by omega)
  refine ⟨_, _, allocate_grow c src w nb hn hs, rfl, ?_, ?_, hblock, ?_⟩
  · simp only [allocateBlockAt, ptrSize]
    omega
  · simp only [allocateBlockAt, ptrSize]
    omega
  · intro q hq a h1 h2
    obtain ⟨b, hb, q1, q2, _, _⟩ := hsl q (List.mem_append_left _ hq)
    have eb := env_sizes c src henv w hch b hb
    exact hblock b hb a (by omega) (by omega)

/-- Witness for C8: the fourth allocation of the scenario obtains the block
`8192` and returns `8200`; the three held slots keep their bytes. -/
theorem growth_preserves_live_witness :
    ∃ p w', allocate scenarioCfg scenarioSrc
        (run scenarioCfg scenarioSrc [.alloc, .alloc, .alloc] (World.fresh zeroMem)) = .ok p w' ∧
      w'.obtained
        = 8192 :: (run scenarioCfg scenarioSrc [.alloc, .alloc, .alloc] (World.fresh zeroMem)).obtained ∧
      8192 + ptrSize ≤ p ∧ p + scenarioCfg.slotSize ≤ 8192 + scenarioCfg.BlockSize ∧
      (∀ b ∈ (run scenarioCfg scenarioSrc [.alloc, .alloc, .alloc] (World.fresh zeroMem)).obtained,
        ∀ a, b ≤ a → a < b + scenarioCfg.BlockSize →
          w'.mem a
            = (run scenarioCfg scenarioSrc [.alloc, .alloc, .alloc] (World.fresh zeroMem)).mem a) ∧
      (∀ q ∈ liveAfter scenarioCfg scenarioSrc [.alloc, .alloc, .alloc] (World.fresh zeroMem) [],
        ∀ a, q ≤ a → a < q + scenarioCfg.slotSize →
          w'.mem a
            = (run scenarioCfg scenarioSrc [.alloc, .alloc, .alloc] (World.fresh zeroMem)).mem a) :=
  (growth_preserves_live scenarioCfg scenarioSrc [.alloc, .alloc, .alloc] zeroMem _ 8192
    scenario_sourceOK scenario_aligned (by decide) (by decide) (by decide) (by decide) rfl
    (by simp [InContract, Op.inContract])
    (by simp [needsBlock, run, step, allocate, allocateBlock, allocateBlockAt, carve, scenarioCfg,
      scenarioSrc, World.fresh, Pool.fresh, Result.world, padPointer_eval, ptrSize])
    (by simp [run, step, allocate, allocateBlock, allocateBlockAt, carve, scenarioCfg,
      scenarioSrc, World.fresh, Pool.fresh, Result.world, padPointer_eval, ptrSize])).1

theorem inv_allocateN (c : Config) (src : Nat → Option Nat) (henv : Env c src) (n : Nat) :
    ∀ (w w' : World) (live free rs : List Nat), Inv c src w live free →
      allocateN c src n w = some (rs, w') →
      rs.length = n ∧ ∃ free', Inv c src w' (rs.reverse ++ live) free' := by
  induction n with
  | zero =>
    intro w w' live free rs h hrun
    simp only [allocateN, Option.some.injEq, Prod.mk.injEq] at hrun
    obtain ⟨rfl, rfl⟩ := hrun
    exact ⟨rfl, free, h⟩
  | succ n ih =>
    intro w w' live free rs h hrun
    rw [allocateN] at hrun
    obtain ⟨free₁, h₁⟩ := inv_allocate c src henv w live free h
    unfold liveStep at h₁
    cases ha : allocate c src w with
    | threw w₁ => simp only [ha] at hrun; exact absurd hrun (by simp)
    | ok p w₁ =>
      simp only [ha] at hrun
      rw [ha] at h₁
      simp only [Result.world, Result.addr] at h₁
      cases hb : allocateN c src n w₁ with
      | none => simp only [hb] at hrun; exact absurd hrun (by simp)
      | some r =>
        obtain ⟨ps, w''⟩ := r
        simp only [hb, Option.some.injEq, Prod.mk.injEq] at hrun
        obtain ⟨rfl, rfl⟩ := hrun
        obtain ⟨hlen, free₂, h₂⟩ := ih w₁ w'' (p :: live) free₁ ps h₁ hb
        refine ⟨by simp only [List.length_cons, hlen], free₂, ?_⟩
        rw [List.reverse_cons, List.append_assoc]
        exact h₂

theorem isSlot_aligned (c : Config) (src : Nat → Option Nat) (henv : Env c src) (w : World)
    (hch : ChainInv c src w) (k : Nat) (hk : k ≤ 63) (hA : c.slotAlign = 2 ^ k)
    (hSA : c.slotAlign ∣ c.slotSize) (p : Nat) (hp : IsSlot c w p) : c.slotAlign ∣ p := by
  obtain ⟨b, hb, p1, _, p3, _⟩ := hp
  obtain ⟨hW, hpos⟩ := pow_two_dvd_word c.slotAlign k hk hA
  have eb := env_sizes c src henv w hch b hb
  have hfirst : c.slotAlign ∣ firstSlot c b := by
    have hlt : b + ptrSize < 2 ^ 64 := by unfold ptrSize; omega
    have := padPointer_aligned_of_dvd (b + ptrSize) c.slotAlign hlt hW hpos
    unfold firstSlot
    exact Nat.dvd_of_mod_eq_zero this
  have e : p = firstSlot c b + (p - firstSlot c b) := by omega
  rw [e]
  exact Dvd.dvd.add hfirst (Dvd.dvd.trans hSA p3)

/-- C2. No aliasing and alignment.  Let the memory source hand out non-null,
pairwise disjoint blocks of `BlockSize` bytes, the slot alignment be a power of
two that is a multiple of `alignof(element)`, and the slot size be a multiple
of the slot alignment; and let the pool be instantiated as its design requires:
blocks are 8-aligned, a slot is at least as large and as aligned as a pointer,
and `BlockSize ≥ 2 * slotSize`.  Then `N` consecutive successful `allocate()`
calls on a fresh pool return `N` pairwise distinct addresses, each a multiple
of `alignof(element)`. -/
theorem no_aliasing (c : Config) (src : Nat → Option Nat) (m : Memory) (N : Nat)
    (results : List Nat) (w' : World) (alignElem k : Nat) (hsrc : SourceOK c src)
    (hal : ∀ k b, src k = some b → 8 ∣ b)
    (hk : k ≤ 63) (hA : c.slotAlign = 2 ^ k) (hA8 : 8 ≤ c.slotAlign)
    (hE : alignElem ∣ c.slotAlign) (hSA : c.slotAlign ∣ c.slotSize)
    (hS : 8 ≤ c.slotSize) (hB : 2 * c.slotSize ≤ c.BlockSize)
    (hrun : allocateN c src N (World.fresh m) = some (results, w')) :
    results.length = N ∧ results.Nodup ∧ ∀ a ∈ results, a % alignElem = 0 := by
  have henv := env_of_aligned c src hsrc hal (eight_dvd_pow c.slotAlign k hA hA8) hSA hS hB
  obtain ⟨hlen, free, hinv⟩ :=
    inv_allocateN c src henv N _ w' [] [] results (inv_fresh c src m) hrun
  obtain ⟨hch, _, _, hnd, hsl⟩ := hinv
  rw [List.append_nil] at hnd hsl
  refine ⟨hlen, List.nodup_reverse.1 (List.nodup_append.1 hnd).1, ?_⟩
  intro a ha
  have hs := hsl a (List.mem_append_left _ (List.mem_reverse.2 ha))
  have := isSlot_aligned c src henv w' hch k hk hA hSA a hs
  exact Nat.mod_eq_zero_of_dvd (Dvd.dvd.trans hE this)

/-- Witness for C2: the five allocations of the scenario. -/
theorem no_aliasing_witness :
    ∃ w', allocateN scenarioCfg scenarioSrc 5 (World.fresh zeroMem)
        = some ([4104, 4120, 4136, 8200, 8216], w') ∧
      [4104, 4120, 4136, 8200, 8216].length = 5 ∧
      [4104, 4120, 4136, 8200, 8216].Nodup ∧
      ∀ a ∈ [4104, 4120, 4136, 8200, 8216], a % 8 = 0 := by
  have h : ∃ w', allocateN scenarioCfg scenarioSrc 5 (World.fresh zeroMem)
      = some ([4104, 4120, 4136, 8200, 8216], w') := by
    simp [allocateN, allocate, allocateBlock, allocateBlockAt, carve, scenarioCfg, scenarioSrc,
      World.fresh, Pool.fresh, padPointer_eval, ptrSize]
  obtain ⟨w', hw'⟩ := h
  exact ⟨w', hw', no_aliasing scenarioCfg scenarioSrc zeroMem 5 _ w' 8 3 scenario_sourceOK
    scenario_aligned (by decide) rfl (by decide) (by decide) (by decide) (by decide) (by decide)
    hw'⟩

/-- Under the environment assumptions, a sequence of actions that respects the
contract of the pool never stores into a back-link word. -/
theorem inContract_spares (c : Config) (src : Nat → Option Nat) (henv : Env c src)
    (ops : List Op) :
    ∀ (w : World) (live free : List Nat), Inv c src w live free → InContract c src ops w live →
      SparesBackLinks c src ops w := by
  induction ops with
  | nil => intro _ _ _ _ _; trivial
  | cons op ops ih =>
    intro w live free h hc
    have hS : 8 ≤ c.slotSize := henv.2.1
    obtain ⟨free', h'⟩ := inv_step c src henv w live free op h hc.1
    refine ⟨?_, ih _ _ free' h' hc.2⟩
    cases op with
    | alloc => trivial
    | dealloc p =>
      rcases hc.1 with h0 | hp
      · exact Or.inl h0
      · right
        intro b hb
        have := (isSlot_backlink c src henv w h.1 p
          (h.2.2.2.2 p (List.mem_append_left _ hp))).2.2 b hb
        unfold ptrSize
        omega
    | store a v =>
      obtain ⟨p, hp, a1, a2⟩ := hc.1
      intro b hb
      have := (isSlot_backlink c src henv w h.1 p
        (h.2.2.2.2 p (List.mem_append_left _ hp))).2.2 b hb
      unfold ptrSize
      omega

/-- C20. The carve that follows `allocateBlock()` is not re-checked against
`lastSlot_`.  For every block base `b` that is a multiple of 8, every slot
alignment that is a power of two and at least 8, every slot size that is a
positive multiple of the alignment, and every `BlockSize ≥ 2 * slotSize`, the
first slot address `f = b + 8 + padPointer (b + 8) align` satisfies
`f + slotSize ≤ b + BlockSize` and `f < lastSlot_`; so the address returned by an
`allocate()` that has just obtained `b` is a slot lying wholly inside the block. -/
theorem first_carve_in_bounds (c : Config) (b k : Nat) (hb : b % 8 = 0)
    (hA : c.slotAlign = 2 ^ k) (hA8 : 8 ≤ c.slotAlign) (hSA : c.slotAlign ∣ c.slotSize)
    (hS : 0 < c.slotSize) (hB : 2 * c.slotSize ≤ c.BlockSize) :
    firstSlot c b + c.slotSize ≤ b + c.BlockSize ∧
    firstSlot c b < b + c.BlockSize - c.slotSize + 1 ∧
    b + ptrSize ≤ firstSlot c b ∧
    ∀ (src : Nat → Option Nat) (w : World), needsBlock w → src w.requests.length = some b →
      ∃ w', allocate c src w = .ok (firstSlot c b) w' ∧
        firstSlot c b < w'.pool.lastSlot_ ∧
        firstSlot c b + c.slotSize ≤ w'.pool.currentBlock_ + c.BlockSize := by
  have hfit := fits_of_aligned c b (Nat.dvd_of_mod_eq_zero hb)
    (eight_dvd_pow c.slotAlign k hA hA8) hSA hS hB
  unfold BlockFits ptrSize at hfit
  have hf : firstSlot c b = b + 8 + padPointer (b + 8) c.slotAlign := rfl
  refine ⟨by omega, by omega, by unfold ptrSize; omega, ?_⟩
  intro src w hn hs
  refine ⟨_, allocate_grow c src w b hn hs, ?_, ?_⟩
  · simp only [allocateBlockAt]
    omega
  · simp only [allocateBlockAt]
    omega

/-- Witness for C20: the scenario block at `4096` with 8-aligned 16-byte slots. -/
theorem first_carve_in_bounds_witness :
    firstSlot scenarioCfg 4096 + scenarioCfg.slotSize ≤ 4096 + scenarioCfg.BlockSize ∧
    firstSlot scenarioCfg 4096 < 4096 + scenarioCfg.BlockSize - scenarioCfg.slotSize + 1 ∧
    4096 + ptrSize ≤ firstSlot scenarioCfg 4096 ∧
    ∀ (src : Nat → Option Nat) (w : World), needsBlock w → src w.requests.length = some 4096 →
      ∃ w', allocate scenarioCfg src w = .ok (firstSlot scenarioCfg 4096) w' ∧
        firstSlot scenarioCfg 4096 < w'.pool.lastSlot_ ∧
        firstSlot scenarioCfg 4096 + scenarioCfg.slotSize
          ≤ w'.pool.currentBlock_ + scenarioCfg.BlockSize :=
  first_carve_in_bounds scenarioCfg 4096 3 (by norm_num) rfl (by decide) (by decide) (by decide)
    (by decide)

/-- C16. A pool copy-constructed from any pool `A`, or converted from a pool of
another element type, has all four members `nullptr` like a default-constructed
pool, and `A` is unchanged; the copy owns no block and has an empty free list,
and its first `allocate()` makes a request to the memory source. -/
theorem copy_construct_empty (A : Pool) :
    (copyConstruct A).1 = Pool.fresh ∧ (copyConstruct A).2 = A ∧
    (convertConstruct A).1 = Pool.fresh ∧ (convertConstruct A).2 = A ∧
    (copyConstruct A).1 = ⟨0, 0, 0, 0⟩ ∧
    (∀ m : Memory, Chain m (copyConstruct A).1.currentBlock_ [] ∧
      Chain m (copyConstruct A).1.freeSlots_ []) ∧
    ∀ (c : Config) (src : Nat → Option Nat) (m : Memory) (requests obtained : List Nat),
      needsBlock ⟨(copyConstruct A).1, m, requests, obtained⟩ ∧
      (allocate c src ⟨(copyConstruct A).1, m, requests, obtained⟩).world.requests
        = c.BlockSize :: requests := by
  refine ⟨rfl, rfl, rfl, rfl, rfl, fun m => ⟨rfl, rfl⟩, ?_⟩
  intro c src m requests obtained
  have hn : needsBlock ⟨(copyConstruct A).1, m, requests, obtained⟩ := ⟨rfl, Nat.le_refl 0⟩
  refine ⟨hn, ?_⟩
  rw [allocate_requests, if_pos hn]

/-- C12 (behaviour of the code at the failing input). Move assignment between
distinct pools swaps the two `currentBlock_` members and copies the other three
members from the argument, which keeps them.  For `a` fresh and
`b = ⟨4096, 4120, 4137, 0⟩` (one allocation made in the scenario), after
`a = std::move(b)` both pools have cursor `4120` and `lastSlot_ = 4137`: the next
`allocate()` of `b` and the next `allocate()` of `a` both return `4120`, an
address inside the block `[4096, 4152)` now reachable from `a.currentBlock_`. -/
theorem moveAssign_source_keeps_cursor :
    (∀ a b : Pool, (moveAssign false a b).1 = b ∧
      (moveAssign false a b).2 = { b with currentBlock_ := a.currentBlock_ }) ∧
    (moveAssign false Pool.fresh ⟨4096, 4120, 4137, 0⟩).1 = ⟨4096, 4120, 4137, 0⟩ ∧
    (moveAssign false Pool.fresh ⟨4096, 4120, 4137, 0⟩).2 = ⟨0, 4120, 4137, 0⟩ ∧
    (allocate scenarioCfg scenarioSrc
        ⟨(moveAssign false Pool.fresh ⟨4096, 4120, 4137, 0⟩).2, zeroMem, [56], [4096]⟩).addr
      = some 4120 ∧
    (allocate scenarioCfg scenarioSrc
        ⟨(moveAssign false Pool.fresh ⟨4096, 4120, 4137, 0⟩).1, zeroMem, [56], [4096]⟩).addr
      = some 4120 ∧
    (allocate scenarioCfg scenarioSrc
        ⟨(moveAssign false Pool.fresh ⟨4096, 4120, 4137, 0⟩).2, zeroMem, [56],
          [4096]⟩).world.requests = [56] ∧
    (moveAssign false Pool.fresh ⟨4096, 4120, 4137, 0⟩).1.currentBlock_ ≤ 4120 ∧
    4120 + scenarioCfg.slotSize
      ≤ (moveAssign false Pool.fresh ⟨4096, 4120, 4137, 0⟩).1.currentBlock_
        + scenarioCfg.BlockSize := by
  refine ⟨fun a b => ⟨rfl, rfl⟩, rfl, rfl, ?_, ?_, ?_, by decide, by decide⟩
  · simp [allocate, carve, moveAssign, Pool.fresh, Result.addr]
  · simp [allocate, carve, moveAssign, Pool.fresh, Result.addr]
  · simp [allocate, carve, moveAssign, Pool.fresh, Result.world]

theorem scenarioSeven_eval :
    InContract scenarioCfg scenarioSrc scenarioSeven (World.fresh zeroMem) [] ∧
    liveAfter scenarioCfg scenarioSrc scenarioSeven (World.fresh zeroMem) []
      = [8216, 4136, 4104] ∧
    (run scenarioCfg scenarioSrc scenarioSeven (World.fresh zeroMem)).pool
      = ⟨8192, 8232, 8233, 8200⟩ ∧
    (run scenarioCfg scenarioSrc scenarioSeven (World.fresh zeroMem)).obtained = [8192, 4096] := by
  simp [run, step, scenarioSeven, allocate, allocateBlock, allocateBlockAt, carve,
    scenarioCfg, deallocate, scenarioSrc, World.fresh, Pool.fresh, Result.world, Result.addr,
    padPointer_eval, ptrSize, InContract, Op.inContract, liveStep, liveAfter]

/-- C11. The free list never dangles.  The pool is instantiated as its design
requires: `operator new` hands out non-null, pairwise disjoint, 8-aligned
blocks, the slot alignment is a multiple of 8 dividing the slot size, a slot
holds a pointer, and `BlockSize ≥ 2 * slotSize`.  In every state reached from a
fresh pool by `allocate()`, in-contract `deallocate` and client stores into
held slots, the free list is a finite chain ending in `nullptr` without
repeats, the back-links from `currentBlock_` lead through exactly the blocks
obtained, and every slot on the free list lies wholly inside one of those
blocks, after its back-link word. -/
theorem free_list_inside_blocks (c : Config) (src : Nat → Option Nat) (ops : List Op)
    (m : Memory) (hsrc : SourceOK c src)
    (hal : ∀ k b, src k = some b → 8 ∣ b) (hA8 : 8 ∣ c.slotAlign)
    (hSA : c.slotAlign ∣ c.slotSize) (hS : 8 ≤ c.slotSize)
    (hB : 2 * c.slotSize ≤ c.BlockSize)
    (hops : InContract c src ops (World.fresh m) []) :
    ∃ free, Chain (run c src ops (World.fresh m)).mem
        (run c src ops (World.fresh m)).pool.freeSlots_ free ∧
      free.Nodup ∧
      Chain (run c src ops (World.fresh m)).mem
        (run c src ops (World.fresh m)).pool.currentBlock_
        (run c src ops (World.fresh m)).obtained ∧
      ∀ p ∈ free, ∃ b ∈ (run c src ops (World.fresh m)).obtained,
        b + ptrSize ≤ p ∧ p + c.slotSize ≤ b + c.BlockSize := by
  have henv := env_of_aligned c src hsrc hal hA8 hSA hS hB
  obtain ⟨free, hch, _, hfree, hnd, hsl⟩ :=
    inv_run c src henv ops _ [] [] (inv_fresh c src m) hops
  refine ⟨free, hfree, (List.nodup_append.1 hnd).2.1, hch.1, ?_⟩
  intro p hp
  obtain ⟨b, hb, p1, p2, _, _⟩ := hsl p (List.mem_append_right _ hp)
  have eb := env_sizes c src henv _ hch b hb
  exact ⟨b, hb, by unfold ptrSize; omega, p2⟩

/-- Witness for C11: the scenario after its two `deallocate` calls. -/
theorem free_list_inside_blocks_witness :
    ∃ free, Chain (run scenarioCfg scenarioSrc scenarioSeven (World.fresh zeroMem)).mem
        (run scenarioCfg scenarioSrc scenarioSeven (World.fresh zeroMem)).pool.freeSlots_ free ∧
      free.Nodup ∧
      Chain (run scenarioCfg scenarioSrc scenarioSeven (World.fresh zeroMem)).mem
        (run scenarioCfg scenarioSrc scenarioSeven (World.fresh zeroMem)).pool.currentBlock_
        (run scenarioCfg scenarioSrc scenarioSeven (World.fresh zeroMem)).obtained ∧
      ∀ p ∈ free, ∃ b ∈ (run scenarioCfg scenarioSrc scenarioSeven (World.fresh zeroMem)).obtained,
        b + ptrSize ≤ p ∧ p + scenarioCfg.slotSize ≤ b + scenarioCfg.BlockSize :=
  free_list_inside_blocks scenarioCfg scenarioSrc scenarioSeven zeroMem scenario_sourceOK
    scenario_aligned (by decide) (by decide) (by decide) (by decide) scenarioSeven_eval.1

theorem inv_pairwise_apart (c : Config) (src : Nat → Option Nat) (henv : Env c src) (w : World)
    (live free : List Nat) (h : Inv c src w live free) :
    (live ++ free).Pairwise (fun p q => p + c.slotSize ≤ q ∨ q + c.slotSize ≤ p) := by
  obtain ⟨hch, _, _, hnd, hsl⟩ := h
  refine List.Pairwise.imp_of_mem ?_ hnd
  intro p q hp hq hne
  exact isSlot_apart c src henv w hch p q (hsl p hp) (hsl q hq) hne

theorem inv_uncarved (c : Config) (src : Nat → Option Nat) (henv : Env c src) (w : World)
    (live free : List Nat) (h : Inv c src w live free) (b : Nat) (rest : List Nat)
    (ho : w.obtained = b :: rest) :
    ∀ p ∈ live ++ free, p + c.slotSize ≤ w.pool.currentSlot_ ∨ b + c.BlockSize ≤ p := by
  obtain ⟨hch, hcur, _, _, hsl⟩ := h
  intro p hp
  obtain ⟨b', hb', p1, p2, _, p4⟩ := hsl p hp
  have hb : b ∈ w.obtained := by rw [ho]; exact List.mem_cons_self _ _
  have eb := env_sizes c src henv w hch b hb
  have eb' := env_sizes c src henv w hch b' hb'
  unfold CursorInv at hcur
  rw [ho] at hcur
  simp only at hcur
  have hcb : w.pool.currentBlock_ = b := by
    have := hch.1
    rw [ho] at this
    exact this.1
  by_cases hbb : b' = b
  · left
    exact p4 (by rw [hcb]; exact hbb)
  · have := hch.2.2.forall (apart_symm c) hb' hb hbb
    unfold Apart at this
    omega

/-- C18. `allocate()` never hands out a live slot.  The pool is instantiated as
its design requires: `operator new` hands out non-null, pairwise disjoint,
8-aligned blocks, the slot alignment is a multiple of 8 dividing the slot size,
a slot holds a pointer, and `BlockSize ≥ 2 * slotSize`.  In every state `w`
reached from a fresh pool by `allocate()`, in-contract `deallocate` and client
stores into held slots, an address returned by `allocate()` has a slot range
disjoint from the range of every held slot; and the held slots and the
free-list slots are pairwise disjoint and all disjoint from the part of the
newest block that has not been carved yet, `[currentSlot_, block + BlockSize)`. -/
theorem allocate_never_live (c : Config) (src : Nat → Option Nat) (ops : List Op)
    (m : Memory) (w : World) (live : List Nat) (hsrc : SourceOK c src)
    (hal : ∀ k b, src k = some b → 8 ∣ b) (hA8 : 8 ∣ c.slotAlign)
    (hSA : c.slotAlign ∣ c.slotSize) (hS : 8 ≤ c.slotSize)
    (hB : 2 * c.slotSize ≤ c.BlockSize)
    (hops : InContract c src ops (World.fresh m) [])
    (hw : w = run c src ops (World.fresh m))
    (hl : live = liveAfter c src ops (World.fresh m) []) :
    (∀ p w', allocate c src w = .ok p w' →
      ∀ q ∈ live, p + c.slotSize ≤ q ∨ q + c.slotSize ≤ p) ∧
    ∃ free, Chain w.mem w.pool.freeSlots_ free ∧
      (live ++ free).Pairwise (fun p q => p + c.slotSize ≤ q ∨ q + c.slotSize ≤ p) ∧
      ∀ b rest, w.obtained = b :: rest →
        ∀ p ∈ live ++ free, p + c.slotSize ≤ w.pool.currentSlot_ ∨ b + c.BlockSize ≤ p := by
  have henv := env_of_aligned c src hsrc hal hA8 hSA hS hB
  obtain ⟨free, hinv⟩ := inv_run c src henv ops _ [] [] (inv_fresh c src m) hops
  rw [← hw, ← hl] at hinv
  refine ⟨?_, free, hinv.2.2.1, inv_pairwise_apart c src henv w live free hinv,
    fun b rest ho => inv_uncarved c src henv w live free hinv b rest ho⟩
  intro p w' hp q hq
  obtain ⟨free', hinv'⟩ := inv_allocate c src henv w live free hinv
  unfold liveStep at hinv'
  rw [hp] at hinv'
  simp only [Result.world, Result.addr] at hinv'
  have hpw := inv_pairwise_apart c src henv w' (p :: live) free' hinv'
  rw [List.cons_append, List.pairwise_cons] at hpw
  exact hpw.1 q (List.mem_append_left _ hq)

/-- Witness for C18: the scenario after its two `deallocate` calls, where the
next `allocate()` returns `8200` while `8216`, `4136`, `4104` are held. -/
theorem allocate_never_live_witness :
    (∀ p w', allocate scenarioCfg scenarioSrc
        (run scenarioCfg scenarioSrc scenarioSeven (World.fresh zeroMem)) = .ok p w' →
      ∀ q ∈ [8216, 4136, 4104],
        p + scenarioCfg.slotSize ≤ q ∨ q + scenarioCfg.slotSize ≤ p) ∧
    ∃ free, Chain (run scenarioCfg scenarioSrc scenarioSeven (World.fresh zeroMem)).mem
        (run scenarioCfg scenarioSrc scenarioSeven (World.fresh zeroMem)).pool.freeSlots_ free ∧
      ([8216, 4136, 4104] ++ free).Pairwise
        (fun p q => p + scenarioCfg.slotSize ≤ q ∨ q + scenarioCfg.slotSize ≤ p) ∧
      ∀ b rest, (run scenarioCfg scenarioSrc scenarioSeven (World.fresh zeroMem)).obtained
          = b :: rest →
        ∀ p ∈ [8216, 4136, 4104] ++ free,
          p + scenarioCfg.slotSize
              ≤ (run scenarioCfg scenarioSrc scenarioSeven (World.fresh zeroMem)).pool.currentSlot_ ∨
            b + scenarioCfg.BlockSize ≤ p :=
  allocate_never_live scenarioCfg scenarioSrc scenarioSeven zeroMem _ _ scenario_sourceOK
    scenario_aligned (by decide) (by decide) (by decide) (by decide)
    scenarioSeven_eval.1 rfl scenarioSeven_eval.2.1.symm

theorem carvedTo_lt_iff (c : Config) (w : World) (b i : Nat) (h : CarvedTo c w b i)
    (hfit : BlockFits c b) (hS : 0 < c.slotSize) :
    w.pool.currentSlot_ < w.pool.lastSlot_ ↔ i < slotsIn c b := by
  obtain ⟨_, h2, h3⟩ := h
  unfold BlockFits ptrSize at hfit
  have hiff : i + 1 ≤ slotsIn c b ↔
      (i + 1) * c.slotSize ≤ c.BlockSize - 8 - padPointer (b + 8) c.slotAlign := by
    unfold slotsIn ptrSize
    exact Nat.le_div_iff_mul_le hS
  have hmul : (i + 1) * c.slotSize = i * c.slotSize + c.slotSize := Nat.succ_mul _ _
  have hf : firstSlot c b = b + 8 + padPointer (b + 8) c.slotAlign := rfl
  constructor
  · intro hlt
    have : i + 1 ≤ slotsIn c b := hiff.2 (by omega)
    omega
  · intro hlt
    have := hiff.1 (by omega)
    omega

theorem carvedTo_grow (c : Config) (src : Nat → Option Nat) (w : World) (nb : Nat)
    (hn : needsBlock w) (hs : src w.requests.length = some nb) :
    allocate c src w = carve c (allocateBlockAt c nb w) ∧
    CarvedTo c (carve c (allocateBlockAt c nb w)).world nb 1 := by
  refine ⟨allocate_grow c src w nb hn hs, ?_, ?_, ?_⟩
  · exact hn.1
  · simp only [carve, Result.world, allocateBlockAt, firstSlot, Nat.one_mul]
  · rfl

theorem map_range_succ (g : Nat → Nat) (n : Nat) :
    (List.range (n + 1)).map g = g 0 :: (List.range n).map (fun k => g (k + 1)) := by
  rw [List.range_succ_eq_map, List.map_cons, List.map_map]
  rfl

theorem carve_run (c : Config) (src : Nat → Option Nat) (b : Nat) (hfit : BlockFits c b)
    (hS : 0 < c.slotSize) (n : Nat) :
    ∀ (i : Nat) (w : World), CarvedTo c w b i → i + n ≤ slotsIn c b →
      ∃ w', allocateN c src n w
          = some ((List.range n).map (fun k => firstSlot c b + (i + k) * c.slotSize), w') ∧
        CarvedTo c w' b (i + n) ∧ w'.requests = w.requests ∧ w'.obtained = w.obtained ∧
        w'.pool.currentBlock_ = w.pool.currentBlock_ ∧ w'.mem = w.mem := by
  induction n with
  | zero =>
    intro i w h _
    exact ⟨w, rfl, h, rfl, rfl, rfl, rfl⟩
  | succ n ih =>
    intro i w h hle
    have hlt : w.pool.currentSlot_ < w.pool.lastSlot_ :=
      (carvedTo_lt_iff c w b i h hfit hS).2 (by omega)
    have ha := allocate_carve c src w h.1 hlt
    have h1 : CarvedTo c (carve c w).world b (i + 1) := by
      refine ⟨h.1, ?_, h.2.2⟩
      simp only [carve, Result.world, h.2.1, Nat.succ_mul, Nat.add_assoc]
    obtain ⟨w', hrun, hc, hreq, hobt, hcb, hmem⟩ := ih (i + 1) (carve c w).world h1 (by omega)
    refine ⟨w', ?_, ?_, hreq, hobt, hcb, hmem⟩
    · rw [allocateN, ha]
      simp only [carve]
      simp only [carve, Result.world] at hrun
      have e : (fun k => firstSlot c b + (i + 1 + k) * c.slotSize)
          = (fun k => firstSlot c b + (i + (k + 1)) * c.slotSize) := by
        funext k
        rw [show i + 1 + k = i + (k + 1) by omega]
      rw [hrun, map_range_succ, h.2.1, e, Nat.add_zero]
    · have e : i + (n + 1) = i + 1 + n := by omega
      rw [e]
      exact hc

/-- C17. For every block `b` whose first slot fits (`8 + pad + S ≤ BlockSize`,
`pad = padPointer (b + 8) align`), and with `n = floor((BlockSize - 8 - pad) / S)`:
every address `b + 8 + pad + k * S` with `k < n` is a slot lying in
`[b + 8, b + BlockSize)`; one more slot would pass the block end; and the `n`
allocations that start with the `allocate()` obtaining `b` return exactly these
addresses in order with that single request, after which the pool needs a new
block. -/
theorem carving_in_bounds_maximal (c : Config) (b : Nat) (hfit : BlockFits c b)
    (hS : 0 < c.slotSize) :
    (∀ k, k < slotsIn c b →
      b + ptrSize ≤ firstSlot c b + k * c.slotSize ∧
      firstSlot c b + k * c.slotSize + c.slotSize ≤ b + c.BlockSize) ∧
    b + c.BlockSize < firstSlot c b + slotsIn c b * c.slotSize + c.slotSize ∧
    1 ≤ slotsIn c b ∧
    ∀ (src : Nat → Option Nat) (w : World), needsBlock w → src w.requests.length = some b →
      ∃ w', allocateN c src (slotsIn c b) w
          = some ((List.range (slotsIn c b)).map (fun k => firstSlot c b + k * c.slotSize), w') ∧
        w'.requests = c.BlockSize :: w.requests ∧ w'.obtained = b :: w.obtained ∧
        w'.pool.currentBlock_ = b ∧ needsBlock w' := by
  have hfit' := hfit
  unfold BlockFits ptrSize at hfit'
  have hf : firstSlot c b = b + 8 + padPointer (b + 8) c.slotAlign := rfl
  have hdiv : ∀ k, k ≤ slotsIn c b ↔
      k * c.slotSize ≤ c.BlockSize - 8 - padPointer (b + 8) c.slotAlign := by
    intro k
    unfold slotsIn ptrSize
    exact Nat.le_div_iff_mul_le hS
  have hone : 1 ≤ slotsIn c b := (hdiv 1).2 (by omega)
  refine ⟨?_, ?_, hone, ?_⟩
  · intro k hk
    have := (hdiv (k + 1)).1 hk
    rw [Nat.succ_mul] at this
    unfold ptrSize
    omega
  · have : ¬ (slotsIn c b + 1 ≤ slotsIn c b) := by omega
    rw [hdiv, Nat.succ_mul] at this
    omega
  · intro src w hn hs
    obtain ⟨hg, hc1⟩ := carvedTo_grow c src w b hn hs
    obtain ⟨n, hn1⟩ : ∃ n, slotsIn c b = n + 1 := ⟨slotsIn c b - 1, by omega⟩
    obtain ⟨w', hrun, hc, hreq, hobt, hcb, _⟩ :=
      carve_run c src b hfit hS n 1 _ hc1 (by omega)
    refine ⟨w', ?_, ?_, ?_, ?_, ?_⟩
    · rw [hn1, allocateN, hg]
      simp only [carve]
      simp only [carve, Result.world] at hrun
      have e : (fun k => firstSlot c b + (1 + k) * c.slotSize)
          = (fun k => firstSlot c b + (k + 1) * c.slotSize) := by
        funext k
        rw [show 1 + k = k + 1 by omega]
      rw [hrun, map_range_succ, e, Nat.zero_mul, Nat.add_zero]
      rfl
    · rw [hreq]; rfl
    · rw [hobt]; rfl
    · rw [hcb]; rfl
    · refine ⟨hc.1, ?_⟩
      have := (carvedTo_lt_iff c w' b (1 + n) hc hfit hS)
      have hnot : ¬ (1 + n < slotsIn c b) := by omega
      have := mt this.1 hnot
      omega

/-- Witness for C17: the scenario block at `4096` yields exactly the three slots
`4104`, `4120`, `4136`. -/
theorem carving_in_bounds_maximal_witness :
    slotsIn scenarioCfg 4096 = 3 ∧
    (List.range 3).map (fun k => firstSlot scenarioCfg 4096 + k * scenarioCfg.slotSize)
      = [4104, 4120, 4136] ∧
    ((∀ k, k < slotsIn scenarioCfg 4096 →
      4096 + ptrSize ≤ firstSlot scenarioCfg 4096 + k * scenarioCfg.slotSize ∧
      firstSlot scenarioCfg 4096 + k * scenarioCfg.slotSize + scenarioCfg.slotSize
        ≤ 4096 + scenarioCfg.BlockSize) ∧
    4096 + scenarioCfg.BlockSize
      < firstSlot scenarioCfg 4096 + slotsIn scenarioCfg 4096 * scenarioCfg.slotSize
        + scenarioCfg.slotSize ∧
    1 ≤ slotsIn scenarioCfg 4096 ∧
    ∀ (src : Nat → Option Nat) (w : World), needsBlock w → src w.requests.length = some 4096 →
      ∃ w', allocateN scenarioCfg src (slotsIn scenarioCfg 4096) w
          = some ((List.range (slotsIn scenarioCfg 4096)).map
              (fun k => firstSlot scenarioCfg 4096 + k * scenarioCfg.slotSize), w') ∧
        w'.requests = scenarioCfg.BlockSize :: w.requests ∧ w'.obtained = 4096 :: w.obtained ∧
        w'.pool.currentBlock_ = 4096 ∧ needsBlock w') :=
  ⟨by simp [slotsIn, scenarioCfg, padPointer_eval, ptrSize],
   by simp [firstSlot, scenarioCfg, padPointer_eval, ptrSize, List.range_succ],
   carving_in_bounds_maximal scenarioCfg 4096 (scenario_fits 0 4096 rfl) (by decide)⟩

theorem slotsIn_pos_fits (c : Config) (b : Nat) (h : 1 ≤ slotsIn c b) :
    0 < c.slotSize ∧ BlockFits c b := by
  have hS : 0 < c.slotSize := by
    by_contra h0
    have h0' : c.slotSize = 0 := by omega
    unfold slotsIn at h
    rw [h0', Nat.div_zero] at h
    omega
  refine ⟨hS, ?_⟩
  unfold slotsIn at h
  have := (Nat.le_div_iff_mul_le hS).1 h
  unfold BlockFits
  omega

theorem fill_step (c : Config) (src : Nat → Option Nat) (cnt : Nat)
    (hc : ∀ k b, src k = some b → slotsIn c b = cnt) (hcnt : 1 ≤ cnt)
    (j : Nat) (w w' : World) (p : Nat) (h : Fill c cnt j w)
    (ha : allocate c src w = .ok p w') :
    Fill c cnt (j + 1) w' ∧ (needsBlock w ↔ j % cnt = 0) := by
  obtain ⟨hf, hrq, hcase⟩ := h
  have grow : needsBlock w → ∃ nb, src w.requests.length = some nb ∧
      w' = (carve c (allocateBlockAt c nb w)).world ∧
      CarvedTo c (carve c (allocateBlockAt c nb w)).world nb 1 := by
    intro hn
    cases hs : src w.requests.length with
    | none =>
      rw [allocate_fail c src w hn hs] at ha
      exact absurd ha (by simp)
    | some nb =>
      obtain ⟨hg, hc1⟩ := carvedTo_grow c src w nb hn hs
      rw [hg] at ha
      simp only [carve, Result.ok.injEq] at ha
      exact ⟨nb, rfl, by rw [← ha.2]; rfl, hc1⟩
  rcases hcase with ⟨hj, ho, hcs, hls⟩ | ⟨b, rest, i, ho, hsl, hcar, hi1, hi2, hj⟩
  · have hn : needsBlock w := ⟨hf, by omega⟩
    obtain ⟨nb, hs, hw', hc1⟩ := grow hn
    subst hw'
    refine ⟨⟨hc1.1, ?_, Or.inr ⟨nb, w.obtained, 1, rfl, hc _ nb hs, hc1, le_refl 1, hcnt, ?_⟩⟩,
      ?_⟩
    · simp only [carve, Result.world, allocateBlockAt, List.length_cons, hrq]
    · rw [ho, hj]
      simp
    · rw [hj, Nat.zero_mod]
      exact ⟨fun _ => rfl, fun _ => hn⟩
  · obtain ⟨hS, hfit⟩ := slotsIn_pos_fits c b (by rw [hsl]; exact hcnt)
    have hiff := carvedTo_lt_iff c w b i hcar hfit hS
    rw [hsl] at hiff
    by_cases hlt : i < cnt
    · have hcl := hiff.2 hlt
      have hal := allocate_carve c src w hf hcl
      rw [hal] at ha
      simp only [carve, Result.ok.injEq] at ha
      have hw' : w' = (carve c w).world := by rw [← ha.2]; rfl
      subst hw'
      refine ⟨⟨hf, hrq, Or.inr ⟨b, rest, i + 1, ho, hsl, ?_, by omega, by omega, by omega⟩⟩, ?_⟩
      · refine ⟨hf, ?_, hcar.2.2⟩
        simp only [carve, Result.world, hcar.2.1, Nat.succ_mul, Nat.add_assoc]
      · have hmod : j % cnt = i := by
          rw [hj, Nat.add_comm, Nat.add_mul_mod_self_right, Nat.mod_eq_of_lt hlt]
        constructor
        · intro hn
          have := hn.2
          omega
        · intro h0
          omega
    · have hi : i = cnt := by omega
      have hn : needsBlock w := by
        refine ⟨hf, ?_⟩
        by_contra hge
        exact hlt (hiff.1 (by omega))
      obtain ⟨nb, hs, hw', hc1⟩ := grow hn
      subst hw'
      refine ⟨⟨hc1.1, ?_, Or.inr ⟨nb, w.obtained, 1, rfl, hc _ nb hs, hc1, le_refl 1, hcnt, ?_⟩⟩,
        ?_⟩
      · simp only [carve, Result.world, allocateBlockAt, List.length_cons, hrq]
      · rw [ho, hj, hi, List.length_cons, Nat.succ_mul]
      · have hmod : j % cnt = 0 := by
          rw [hj, hi, Nat.add_comm, Nat.add_mul_mod_self_right, Nat.mod_self]
        exact ⟨fun _ => hmod, fun _ => hn⟩

theorem fill_blocks (c : Config) (cnt j : Nat) (w : World) (hcnt : 1 ≤ cnt)
    (h : Fill c cnt j w) : w.obtained.length = (j + cnt - 1) / cnt := by
  obtain ⟨_, _, hcase⟩ := h
  rcases hcase with ⟨hj, ho, _, _⟩ | ⟨b, rest, i, ho, _, _, hi1, hi2, hj⟩
  · rw [ho, hj, List.length_nil, Nat.zero_add, Nat.div_eq_of_lt (by omega)]
  · rw [ho, List.length_cons]
    symm
    apply Nat.div_eq_of_lt_le
    · rw [hj, Nat.succ_mul]
      omega
    · rw [hj]
      have : (rest.length + 1 + 1) * cnt = rest.length * cnt + cnt + cnt := by
        rw [Nat.succ_mul, Nat.succ_mul]
      omega

theorem fill_run (c : Config) (src : Nat → Option Nat) (cnt : Nat)
    (hc : ∀ k b, src k = some b → slotsIn c b = cnt) (hcnt : 1 ≤ cnt) (n : Nat) :
    ∀ (j₀ : Nat) (w w' : World) (rs : List Nat), Fill c cnt j₀ w →
      allocateN c src n w = some (rs, w') →
      Fill c cnt (j₀ + n) w' ∧
      ∀ j, j < n → ∃ rsj wj, allocateN c src j w = some (rsj, wj) ∧
        (needsBlock wj ↔ (j₀ + j) % cnt = 0) := by
  induction n with
  | zero =>
    intro j₀ w w' rs h hrun
    simp only [allocateN, Option.some.injEq, Prod.mk.injEq] at hrun
    obtain ⟨_, rfl⟩ := hrun
    exact ⟨h, fun j hj => absurd hj (Nat.not_lt_zero _)⟩
  | succ n ih =>
    intro j₀ w w' rs h hrun
    rw [allocateN] at hrun
    cases ha : allocate c src w with
    | threw w₁ => simp only [ha] at hrun; exact absurd hrun (by simp)
    | ok p w₁ =>
      simp only [ha] at hrun
      cases hb : allocateN c src n w₁ with
      | none => simp only [hb] at hrun; exact absurd hrun (by simp)
      | some r =>
        obtain ⟨ps, w''⟩ := r
        simp only [hb, Option.some.injEq, Prod.mk.injEq] at hrun
        obtain ⟨_, rfl⟩ := hrun
        obtain ⟨h₁, hiff⟩ := fill_step c src cnt hc hcnt j₀ w w₁ p h ha
        obtain ⟨h₂, hpre⟩ := ih (j₀ + 1) w₁ w'' ps h₁ hb
        refine ⟨by rw [show j₀ + (n + 1) = j₀ + 1 + n by omega]; exact h₂, ?_⟩
        intro j hj
        cases j with
        | zero => exact ⟨[], w, rfl, by rw [Nat.add_zero]; exact hiff⟩
        | succ j =>
          obtain ⟨rsj, wj, hrj, hnj⟩ := hpre j (by omega)
          refine ⟨p :: rsj, wj, ?_, ?_⟩
          · rw [allocateN, ha]
            simp only [hrj]
          · rw [show j₀ + (j + 1) = j₀ + 1 + j by omega]
            exact hnj

/-- C13. For a fresh pool whose every block yields exactly `cnt ≥ 1` slots
(`cnt = floor((BlockSize - 8 - padding) / slotSize)`), `N` consecutive
successful `allocate()` calls with no `deallocate` make exactly
`ceil(N / cnt) = (N + cnt - 1) / cnt` requests to the memory source and obtain
that many blocks, and the call number `j + 1` (after `j` earlier calls) triggers
growth exactly when `j mod cnt = 0`. -/
theorem growth_events (c : Config) (src : Nat → Option Nat) (m : Memory) (cnt N : Nat)
    (rs : List Nat) (w' : World)
    (hc : ∀ k b, src k = some b → slotsIn c b = cnt) (hcnt : 1 ≤ cnt)
    (hrun : allocateN c src N (World.fresh m) = some (rs, w')) :
    w'.obtained.length = (N + cnt - 1) / cnt ∧
    w'.requests.length = (N + cnt - 1) / cnt ∧
    ∀ j, j < N → ∃ rsj wj, allocateN c src j (World.fresh m) = some (rsj, wj) ∧
      (needsBlock wj ↔ j % cnt = 0) := by
  have h0 : Fill c cnt 0 (World.fresh m) := ⟨rfl, rfl, Or.inl ⟨rfl, rfl, rfl, rfl⟩⟩
  obtain ⟨hfill, hpre⟩ := fill_run c src cnt hc hcnt N 0 _ w' rs h0 hrun
  rw [Nat.zero_add] at hfill
  have hlen := fill_blocks c cnt N w' hcnt hfill
  refine ⟨hlen, by rw [hfill.2.1]; exact hlen, ?_⟩
  intro j hj
  obtain ⟨rsj, wj, h1, h2⟩ := hpre j hj
  rw [Nat.zero_add] at h2
  exact ⟨rsj, wj, h1, h2⟩

theorem scenario_slotsIn (k b : Nat) (h : scenarioSrc k = some b) : slotsIn scenarioCfg b = 3 := by
  have hb : 8 ∣ b := by
    unfold scenarioSrc at h
    split at h
    · simp only [Option.some.injEq] at h
      omega
    · exact absurd h (by simp)
  have hpad := pad_le_of_aligned b 8 hb (dvd_refl 8) (by norm_num)
  have h0 : padPointer (b + 8) 8 = 0 := by omega
  unfold slotsIn ptrSize
  simp only [show scenarioCfg.BlockSize = 56 from rfl, show scenarioCfg.slotSize = 16 from rfl,
    show scenarioCfg.slotAlign = 8 from rfl, h0]

/-- Witness for C13: three slots per block and five allocations give growth on
the first and the fourth allocation only, and two blocks. -/
theorem growth_events_witness :
    ∃ w', allocateN scenarioCfg scenarioSrc 5 (World.fresh zeroMem)
        = some ([4104, 4120, 4136, 8200, 8216], w') ∧
      (5 + 3 - 1) / 3 = 2 ∧
      w'.obtained.length = (5 + 3 - 1) / 3 ∧
      w'.requests.length = (5 + 3 - 1) / 3 ∧
      ∀ j, j < 5 → ∃ rsj wj, allocateN scenarioCfg scenarioSrc j (World.fresh zeroMem)
          = some (rsj, wj) ∧
        (needsBlock wj ↔ j % 3 = 0) := by
  have h : ∃ w', allocateN scenarioCfg scenarioSrc 5 (World.fresh zeroMem)
      = some ([4104, 4120, 4136, 8200, 8216], w') := by
    simp [allocateN, allocate, allocateBlock, allocateBlockAt, carve, scenarioCfg, scenarioSrc,
      World.fresh, Pool.fresh, padPointer_eval, ptrSize]
  obtain ⟨w', hw'⟩ := h
  exact ⟨w', hw', by decide,
    growth_events scenarioCfg scenarioSrc zeroMem 3 5 _ w' scenario_slotsIn (by decide) hw'⟩

theorem apart8_symm : Symmetric (fun p q : Nat => p + 8 ≤ q ∨ q + 8 ≤ p) := by
  intro a b h
  omega

theorem cycle_aux (c : Config) (src : Nat → Option Nat) (ord : List Nat → List Nat)
    (hord : ∀ l, (ord l).Perm l) (qs : List Nat) (pool₀ : Pool)
    (hf : pool₀.freeSlots_ < 2 ^ 64) (hq : ∀ q ∈ qs, q ≠ 0 ∧ q < 2 ^ 64)
    (hpw : qs.Pairwise (fun p q => p + 8 ≤ q ∨ q + 8 ≤ p)) (r : Nat) :
    ∀ (ds : List Nat) (w : World), ds.Perm qs → w.pool = pool₀ →
      ∃ wr, repeatCycle c src qs.length ord r (deallocateAll ds w) = some wr ∧
        wr.requests = w.requests ∧ wr.obtained = w.obtained := by
  induction r with
  | zero =>
    intro ds w _ _
    refine ⟨deallocateAll ds w, rfl, ?_, ?_⟩
    · clear * -
      induction ds generalizing w with
      | nil => rfl
      | cons d ds ih =>
        rw [deallocateAll, ih]
        unfold deallocate
        split <;> rfl
    · clear * -
      induction ds generalizing w with
      | nil => rfl
      | cons d ds ih =>
        rw [deallocateAll, ih]
        unfold deallocate
        split <;> rfl
  | succ r ih =>
    intro ds w hperm hpool
    obtain ⟨w₃, hrun, hp3, hr3, ho3, _⟩ := lifo_aux c src ds w (by rw [hpool]; exact hf)
      (fun p hp => hq p (hperm.mem_iff.1 hp))
      ((hperm.pairwise_iff (fun {a b} h => apart8_symm h)).2 hpw)
    rw [hperm.length_eq] at hrun
    obtain ⟨wr, hwr, hr, ho⟩ := ih (ord ds.reverse) w₃
      ((hord _).trans ((List.reverse_perm ds).trans hperm)) (hp3.trans hpool)
    refine ⟨wr, ?_, hr.trans hr3, ho.trans ho3⟩
    rw [repeatCycle, hrun]
    exact hwr

/-- C19. Steady-state reuse needs no new blocks.  The pool is instantiated as
its design requires: `operator new` hands out non-null, pairwise disjoint,
8-aligned blocks, the slot alignment is a multiple of 8 dividing the slot size,
a slot holds a pointer, and `BlockSize ≥ 2 * slotSize`.  From every state `w`
reached from a fresh pool under the contract, if `n` allocations return `qs`
and these are then all given back in any order `ord qs`, the next `n`
allocations make no request to the memory source and return the addresses given
back in reverse order, a rearrangement of the distinct addresses `qs`; and
however often the workload '`n` allocations, then `n` deallocations' is
repeated afterwards, every allocation succeeds and the requests made and blocks
owned stay what they were after the first `n` allocations. -/
theorem steady_state_reuse (c : Config) (src : Nat → Option Nat) (ops : List Op) (m : Memory)
    (w w₁ : World) (n : Nat) (qs : List Nat) (ord : List Nat → List Nat)
    (hsrc : SourceOK c src)
    (hal : ∀ k b, src k = some b → 8 ∣ b) (hA8 : 8 ∣ c.slotAlign)
    (hSA : c.slotAlign ∣ c.slotSize) (hS8 : 8 ≤ c.slotSize)
    (hB : 2 * c.slotSize ≤ c.BlockSize)
    (hops : InContract c src ops (World.fresh m) [])
    (hw : w = run c src ops (World.fresh m))
    (hord : ∀ l, (ord l).Perm l)
    (hrun : allocateN c src n w = some (qs, w₁)) :
    (∃ w₃, allocateN c src n (deallocateAll (ord qs) w₁) = some ((ord qs).reverse, w₃) ∧
      (ord qs).reverse.Perm qs ∧ qs.Nodup ∧
      w₃.requests = w₁.requests ∧ w₃.obtained = w₁.obtained) ∧
    ∀ r, ∃ wr, repeatCycle c src n ord r (deallocateAll (ord qs) w₁) = some wr ∧
      wr.requests = w₁.requests ∧ wr.obtained = w₁.obtained := by
  have henv := env_of_aligned c src hsrc hal hA8 hSA hS8 hB
  obtain ⟨free, hinv⟩ := inv_run c src henv ops _ [] [] (inv_fresh c src m) hops
  rw [← hw] at hinv
  obtain ⟨hlen, free₁, hinv₁⟩ := inv_allocateN c src henv n w w₁ _ free qs hinv hrun
  have hS : 8 ≤ c.slotSize := henv.2.1
  have hmem : ∀ q ∈ qs, q ∈ (qs.reverse ++ liveAfter c src ops (World.fresh m) []) ++ free₁ :=
    fun q hq => List.mem_append_left _ (List.mem_append_left _ (List.mem_reverse.2 hq))
  have hq : ∀ q ∈ qs, q ≠ 0 ∧ q < 2 ^ 64 := by
    intro q hq
    have := isSlot_backlink c src henv w₁ hinv₁.1 q (hinv₁.2.2.2.2 q (hmem q hq))
    exact ⟨this.1, by omega⟩
  have hnd : qs.Nodup :=
    List.nodup_reverse.1 (List.nodup_append.1 (List.nodup_append.1 hinv₁.2.2.2.1).1).1
  have hpw : qs.Pairwise (fun p q => p + 8 ≤ q ∨ q + 8 ≤ p) := by
    refine List.Pairwise.imp_of_mem ?_ hnd
    intro p q hp hq' hne
    have := isSlot_apart c src henv w₁ hinv₁.1 p q (hinv₁.2.2.2.2 p (hmem p hp))
      (hinv₁.2.2.2.2 q (hmem q hq')) hne
    omega
  have hf : w₁.pool.freeSlots_ < 2 ^ 64 := by
    refine Chain.head_lt hinv₁.2.2.1 ?_
    intro q hq'
    have := (isSlot_backlink c src henv w₁ hinv₁.1 q
      (hinv₁.2.2.2.2 q (List.mem_append_right _ hq'))).2.1
    omega
  constructor
  · obtain ⟨w₃, hrun₃, _, hr3, ho3, _⟩ := lifo_aux c src (ord qs) w₁ hf
      (fun p hp => hq p ((hord qs).mem_iff.1 hp))
      (((hord qs).pairwise_iff (fun {a b} h => apart8_symm h)).2 hpw)
    rw [(hord qs).length_eq, hlen] at hrun₃
    exact ⟨w₃, hrun₃, (List.reverse_perm _).trans (hord qs), hnd, hr3, ho3⟩
  · intro r
    have := cycle_aux c src ord hord qs w₁.pool hf hq hpw r (ord qs) w₁ (hord qs) rfl
    rw [hlen] at this
    exact this

/-- Witness for C19: five allocations on the fresh scenario pool, given back
newest first as a stack does. -/
theorem steady_state_reuse_witness :
    ∃ w₁, allocateN scenarioCfg scenarioSrc 5 (World.fresh zeroMem)
        = some ([4104, 4120, 4136, 8200, 8216], w₁) ∧
      (∃ w₃, allocateN scenarioCfg scenarioSrc 5
            (deallocateAll (List.reverse [4104, 4120, 4136, 8200, 8216]) w₁)
          = some ((List.reverse [4104, 4120, 4136, 8200, 8216]).reverse, w₃) ∧
        (List.reverse [4104, 4120, 4136, 8200, 8216]).reverse.Perm
          [4104, 4120, 4136, 8200, 8216] ∧
        [4104, 4120, 4136, 8200, 8216].Nodup ∧
        w₃.requests = w₁.requests ∧ w₃.obtained = w₁.obtained) ∧
      ∀ r, ∃ wr, repeatCycle scenarioCfg scenarioSrc 5 List.reverse r
            (deallocateAll (List.reverse [4104, 4120, 4136, 8200, 8216]) w₁) = some wr ∧
        wr.requests = w₁.requests ∧ wr.obtained = w₁.obtained := by
  have h : ∃ w₁, allocateN scenarioCfg scenarioSrc 5 (World.fresh zeroMem)
      = some ([4104, 4120, 4136, 8200, 8216], w₁) := by
    simp [allocateN, allocate, allocateBlock, allocateBlockAt, carve, scenarioCfg, scenarioSrc,
      World.fresh, Pool.fresh, padPointer_eval, ptrSize]
  obtain ⟨w₁, hw₁⟩ := h
  exact ⟨w₁, hw₁, steady_state_reuse scenarioCfg scenarioSrc [] zeroMem (World.fresh zeroMem) w₁
    5 _ List.reverse scenario_sourceOK scenario_aligned (by decide) (by decide) (by decide)
    (by decide) trivial rfl (fun l => List.reverse_perm l) hw₁⟩

theorem inv_allocate_mono (c : Config) (src : Nat → Option Nat) (henv : Env c src) (w : World)
    (live free : List Nat) (h : Inv c src w live free) :
    ∃ free', Inv c src (allocate c src w).world (liveStep c src w live .alloc) free' ∧
      ∀ p ∈ live ++ free, p ∈ liveStep c src w live .alloc ++ free' := by
  unfold liveStep
  by_cases hf : w.pool.freeSlots_ ≠ 0
  · rw [allocate_free c src w hf]
    obtain ⟨rest, hfr, hinv⟩ := inv_allocate_free c src w live free h hf
    refine ⟨rest, hinv, ?_⟩
    intro p hp
    rw [hfr] at hp
    simp only [Result.addr]
    exact (List.perm_middle.mem_iff).1 hp
  · have hf0 : w.pool.freeSlots_ = 0 := by simpa using hf
    by_cases hc : w.pool.currentSlot_ < w.pool.lastSlot_
    · rw [allocate_carve c src w hf0 hc]
      refine ⟨free, inv_carve c src henv w live free h hc, ?_⟩
      intro p hp
      simp only [carve, Result.addr]
      exact List.mem_cons_of_mem _ hp
    · have hn : needsBlock w := ⟨hf0, by omega⟩
      cases hs : src w.requests.length with
      | none =>
        rw [allocate_fail c src w hn hs]
        exact ⟨free, inv_requests c src w live free _ h, fun p hp => hp⟩
      | some nb =>
        rw [allocate_grow c src w nb hn hs]
        obtain ⟨hinv, hlt⟩ := inv_grow c src henv w live free nb h hf0 hs
        refine ⟨free, inv_carve c src henv _ live free hinv hlt, ?_⟩
        intro p hp
        simp only [carve, Result.addr]
        exact List.mem_cons_of_mem _ hp

theorem inv_step_mono (c : Config) (src : Nat → Option Nat) (henv : Env c src) (w : World)
    (live free : List Nat) (op : Op) (h : Inv c src w live free) (hop : op.inContract c live) :
    ∃ free', Inv c src (step c src w op) (liveStep c src w live op) free' ∧
      ∀ p ∈ live ++ free, p ∈ liveStep c src w live op ++ free' := by
  cases op with
  | alloc => exact inv_allocate_mono c src henv w live free h
  | dealloc p =>
    rcases hop with h0 | hp
    · subst h0
      have hnot : 0 ∉ live := by
        intro hmem
        exact (isSlot_backlink c src henv w h.1 0
          (h.2.2.2.2 0 (List.mem_append_left _ hmem))).1 rfl
      refine ⟨free, ?_, ?_⟩
      · simp only [step, liveStep, deallocate, List.erase_of_not_mem hnot]
        exact h
      · simp only [liveStep, List.erase_of_not_mem hnot]
        exact fun p hp => hp
    · refine ⟨p :: free, inv_deallocate c src henv w live free p h hp, ?_⟩
      intro q hq
      have hperm : (live.erase p ++ p :: free).Perm (live ++ free) :=
        List.perm_middle.trans ((List.perm_cons_erase hp).append_right free).symm
      exact hperm.mem_iff.2 hq
  | store a v => exact ⟨free, inv_store c src henv w live free a v h hop, fun p hp => hp⟩

theorem inv_run_mono (c : Config) (src : Nat → Option Nat) (henv : Env c src) (ops : List Op) :
    ∀ (w : World) (live free : List Nat), Inv c src w live free → InContract c src ops w live →
      ∃ free', Inv c src (run c src ops w) (liveAfter c src ops w live) free' ∧
        (∀ p ∈ live ++ free, p ∈ liveAfter c src ops w live ++ free') ∧
        ∀ p, some p ∈ returned c src ops w → p ∈ liveAfter c src ops w live ++ free' := by
  induction ops with
  | nil =>
    intro w live free h _
    exact ⟨free, h, fun p hp => hp, fun p hp => absurd hp (List.not_mem_nil _)⟩
  | cons op ops ih =>
    intro w live free h hc
    obtain ⟨free₁, h₁, m₁⟩ := inv_step_mono c src henv w live free op h hc.1
    obtain ⟨free', h', m₂, r₂⟩ := ih _ _ free₁ h₁ hc.2
    refine ⟨free', h', fun p hp => m₂ p (m₁ p hp), ?_⟩
    intro p hp
    cases op with
    | alloc =>
      simp only [returned, List.mem_cons] at hp
      rcases hp with hp | hp
      · apply m₂
        apply List.mem_append_left
        simp only [liveStep, ← hp]
        exact List.mem_cons_self _ _
      · exact r₂ p hp
    | dealloc q =>
      simp only [returned] at hp
      exact r₂ p hp
    | store a v =>
      simp only [returned] at hp
      exact r₂ p hp

theorem count_le (g : Nat → Nat → Nat) (M : Nat) (bs L : List Nat) (hnd : L.Nodup)
    (h : ∀ p ∈ L, ∃ b ∈ bs, ∃ k, k < M ∧ p = g b k) : L.length ≤ bs.length * M := by
  have hsub : L.toFinset ⊆ (bs.toFinset ×ˢ Finset.range M).image (fun x => g x.1 x.2) := by
    intro p hp
    obtain ⟨b, hb, k, hk, hpk⟩ := h p (List.mem_toFinset.1 hp)
    rw [Finset.mem_image]
    exact ⟨(b, k), Finset.mem_product.2 ⟨List.mem_toFinset.2 hb, Finset.mem_range.2 hk⟩,
      hpk.symm⟩
  calc L.length = L.toFinset.card := (List.toFinset_card_of_nodup hnd).symm
    _ ≤ ((bs.toFinset ×ˢ Finset.range M).image (fun x => g x.1 x.2)).card :=
      Finset.card_le_card hsub
    _ ≤ (bs.toFinset ×ˢ Finset.range M).card := Finset.card_image_le
    _ = bs.toFinset.card * M := by rw [Finset.card_product, Finset.card_range]
    _ ≤ bs.length * M := Nat.mul_le_mul_right _ (List.toFinset_card_le bs)

theorem isSlot_index (c : Config) (w : World) (p : Nat) (hS : 0 < c.slotSize)
    (hp : IsSlot c w p) :
    ∃ b ∈ w.obtained, ∃ k, k < (c.BlockSize - 8) / c.slotSize ∧
      p = firstSlot c b + k * c.slotSize := by
  obtain ⟨b, hb, p1, p2, ⟨k, hk⟩, _⟩ := hp
  refine ⟨b, hb, k, ?_, ?_⟩
  · have : k + 1 ≤ (c.BlockSize - 8) / c.slotSize := by
      rw [Nat.le_div_iff_mul_le hS, Nat.succ_mul, Nat.mul_comm]
      have hf : firstSlot c b = b + 8 + padPointer (b + 8) c.slotAlign := rfl
      omega
    omega
  · rw [Nat.mul_comm]
    omega

theorem max_size_eq (c : Config) (hS : 8 ≤ c.slotSize) (hB : 2 * c.slotSize ≤ c.BlockSize)
    (hBlt : c.BlockSize < 2 ^ 64) :
    max_size c = (c.BlockSize - 8) / c.slotSize * ((2 ^ 64 - 1) / c.BlockSize) ∧
    (c.BlockSize - 8) / c.slotSize * ((2 ^ 64 - 1) / c.BlockSize) < 2 ^ 64 := by
  have h1 : (c.BlockSize - 8) / c.slotSize ≤ c.BlockSize :=
    (Nat.div_le_self _ _).trans (Nat.sub_le _ _)
  have h2 : (2 ^ 64 - 1) / c.BlockSize * c.BlockSize ≤ 2 ^ 64 - 1 := Nat.div_mul_le_self _ _
  have h3 : (c.BlockSize - 8) / c.slotSize * ((2 ^ 64 - 1) / c.BlockSize)
      ≤ c.BlockSize * ((2 ^ 64 - 1) / c.BlockSize) := Nat.mul_le_mul_right _ h1
  have hlt : (c.BlockSize - 8) / c.slotSize * ((2 ^ 64 - 1) / c.BlockSize) < 2 ^ 64 := by
    rw [Nat.mul_comm c.BlockSize] at h3
    omega
  refine ⟨?_, hlt⟩
  unfold max_size wordMod ptrSize
  simp only
  rw [show (c.BlockSize + 2 ^ 64 - 8) % 2 ^ 64 = c.BlockSize - 8 by omega,
    Nat.mod_eq_of_lt hlt]

/-- C14. For every `BlockSize` (a 64-bit value) and slot size `S` with `S ≥ 8`
and `BlockSize ≥ 2 * S`, `max_size()` is
`floor((BlockSize - 8) / S) * floor((2^64 - 1) / BlockSize)`, and this product
is below `2^64`; every block yields at most `floor((BlockSize - 8) / S)` slots,
which is at least one.  Hence, with a well-behaved memory source returning
8-aligned blocks and a slot alignment that is a multiple of 8 dividing `S`, in
every state reached from a fresh pool under the contract the slots held and the
slots on the free list are distinct, include every address handed out so far,
and number at most `K * floor((BlockSize - 8) / S)` for `K` blocks obtained; so
when `K ≤ floor((2^64 - 1) / BlockSize)` the pool has handed out at most
`max_size()` distinct slots and holds at most `max_size()` live elements. -/
theorem max_size_upper_bound (c : Config) (hS : 8 ≤ c.slotSize)
    (hB : 2 * c.slotSize ≤ c.BlockSize) (hBlt : c.BlockSize < 2 ^ 64) :
    max_size c = (c.BlockSize - 8) / c.slotSize * ((2 ^ 64 - 1) / c.BlockSize) ∧
    (c.BlockSize - 8) / c.slotSize * ((2 ^ 64 - 1) / c.BlockSize) < 2 ^ 64 ∧
    (∀ b, slotsIn c b ≤ (c.BlockSize - 8) / c.slotSize) ∧
    1 ≤ (c.BlockSize - 8) / c.slotSize ∧
    ∀ (src : Nat → Option Nat) (ops : List Op) (m : Memory),
      SourceOK c src → (∀ k b, src k = some b → 8 ∣ b) → 8 ∣ c.slotAlign →
      c.slotAlign ∣ c.slotSize → InContract c src ops (World.fresh m) [] →
      ∃ free,
        (liveAfter c src ops (World.fresh m) [] ++ free).Nodup ∧
        (∀ p, some p ∈ returned c src ops (World.fresh m) →
          p ∈ liveAfter c src ops (World.fresh m) [] ++ free) ∧
        (liveAfter c src ops (World.fresh m) [] ++ free).length
          ≤ (run c src ops (World.fresh m)).obtained.length
            * ((c.BlockSize - 8) / c.slotSize) ∧
        ((run c src ops (World.fresh m)).obtained.length ≤ (2 ^ 64 - 1) / c.BlockSize →
          (liveAfter c src ops (World.fresh m) [] ++ free).length ≤ max_size c ∧
          (liveAfter c src ops (World.fresh m) []).length ≤ max_size c) := by
  have hpos : 0 < c.slotSize := by omega
  obtain ⟨hms, hlt⟩ := max_size_eq c hS hB hBlt
  refine ⟨hms, hlt, ?_, ?_, ?_⟩
  · intro b
    unfold slotsIn ptrSize
    exact Nat.div_le_div_right (Nat.sub_le _ _)
  · rw [Nat.le_div_iff_mul_le hpos]
    omega
  · intro src ops m hsrc hal hA8 hSA hops
    have henv := env_of_aligned c src hsrc hal hA8 hSA hS hB
    obtain ⟨free, hinv, _, hret⟩ :=
      inv_run_mono c src henv ops _ [] [] (inv_fresh c src m) hops
    have hcount := count_le (fun b k => firstSlot c b + k * c.slotSize)
      ((c.BlockSize - 8) / c.slotSize) (run c src ops (World.fresh m)).obtained
      (liveAfter c src ops (World.fresh m) [] ++ free) hinv.2.2.2.1
      (fun p hp => isSlot_index c _ p hpos (hinv.2.2.2.2 p hp))
    refine ⟨free, hinv.2.2.2.1, hret, hcount, ?_⟩
    intro hK
    have hle : (liveAfter c src ops (World.fresh m) [] ++ free).length ≤ max_size c := by
      rw [hms, Nat.mul_comm ((c.BlockSize - 8) / c.slotSize)]
      exact hcount.trans (Nat.mul_le_mul_right _ hK)
    refine ⟨hle, ?_⟩
    rw [List.length_append] at hle
    omega

/-- Witness for C14: 56-byte blocks and 16-byte slots give three slots per
block; after the whole scenario the three held slots and the two known slots
of the second block are within the bound. -/
theorem max_size_upper_bound_witness :
    (scenarioCfg.BlockSize - 8) / scenarioCfg.slotSize = 3 ∧
    max_size scenarioCfg
      = (scenarioCfg.BlockSize - 8) / scenarioCfg.slotSize
        * ((2 ^ 64 - 1) / scenarioCfg.BlockSize) ∧
    ∃ free,
      (liveAfter scenarioCfg scenarioSrc scenarioSeven (World.fresh zeroMem) [] ++ free).Nodup ∧
      (∀ p, some p ∈ returned scenarioCfg scenarioSrc scenarioSeven (World.fresh zeroMem) →
        p ∈ liveAfter scenarioCfg scenarioSrc scenarioSeven (World.fresh zeroMem) [] ++ free) ∧
      (liveAfter scenarioCfg scenarioSrc scenarioSeven (World.fresh zeroMem) [] ++ free).length
        ≤ (run scenarioCfg scenarioSrc scenarioSeven (World.fresh zeroMem)).obtained.length
          * ((scenarioCfg.BlockSize - 8) / scenarioCfg.slotSize) ∧
      ((run scenarioCfg scenarioSrc scenarioSeven (World.fresh zeroMem)).obtained.length
          ≤ (2 ^ 64 - 1) / scenarioCfg.BlockSize →
        (liveAfter scenarioCfg scenarioSrc scenarioSeven (World.fresh zeroMem) [] ++ free).length
          ≤ max_size scenarioCfg ∧
        (liveAfter scenarioCfg scenarioSrc scenarioSeven (World.fresh zeroMem) []).length
          ≤ max_size scenarioCfg) :=
  ⟨by decide,
   (max_size_upper_bound scenarioCfg (by decide) (by decide) (by norm_num [scenarioCfg])).1,
   (max_size_upper_bound scenarioCfg (by decide) (by decide)
      (by norm_num [scenarioCfg])).2.2.2.2 scenarioSrc scenarioSeven zeroMem scenario_sourceOK
      scenario_aligned (by decide) (by decide) scenarioSeven_eval.1⟩

theorem loadBytes_congr (m₁ m₂ : Memory) (p n : Nat)
    (h : ∀ a, p ≤ a → a < p + n → m₁ a = m₂ a) : loadBytes m₁ p n = loadBytes m₂ p n := by
  unfold loadBytes
  apply List.map_congr_left
  intro i hi
  rw [List.mem_range] at hi
  exact h (p + i) (by omega) (by omega)

theorem loadBytes_storeBytes (m : Memory) (p : Nat) (x : List Nat) :
    loadBytes (storeBytes m p x) p x.length = x := by
  apply List.ext_getElem
  · simp [loadBytes]
  · intro i h₁ h₂
    simp only [loadBytes, List.getElem_map, List.getElem_range, storeBytes]
    rw [if_pos (by omega), Nat.add_sub_cancel_left]
    exact (List.getD_eq_getElem x 0 h₂)

theorem rep_congr (L : NodeLayout) (hL : L.OK) {m m' : Memory} :
    ∀ (nodes : List Nat) (xs : List (List Nat)) (head : Nat), Rep L m head xs nodes →
      (∀ q ∈ nodes, ∀ a, q ≤ a → a < q + L.nodeSize → m' a = m a) →
      Rep L m' head xs nodes := by
  intro nodes
  induction nodes with
  | nil =>
    intro xs head h _
    cases xs with
    | nil => exact h
    | cons x xs => exact h
  | cons p ps ih =>
    intro xs head h hm
    cases xs with
    | nil => exact h
    | cons x xs =>
      obtain ⟨h1, h2, h3, h4⟩ := h
      have hp := hm p (List.mem_cons_self _ _)
      have hL1 := hL.1
      have hL2 := hL.2
      unfold ptrSize at hL2
      refine ⟨h1, h2, ?_, ?_⟩
      · rw [← h3]
        exact loadBytes_congr _ _ _ _ (fun a ha1 ha2 => hp a ha1 (by omega))
      · rw [readPtr_congr m' m (p + L.prevOffset) (fun a ha1 ha2 => hp a (by omega) (by omega))]
        exact ih xs _ h4 (fun q hq => hm q (List.mem_cons_of_mem _ hq))

theorem rep_head_lt (L : NodeLayout) {m : Memory} {head : Nat} {xs : List (List Nat)}
    {nodes : List Nat} (h : Rep L m head xs nodes) (hn : ∀ q ∈ nodes, q < 2 ^ 64) :
    head < 2 ^ 64 := by
  cases nodes with
  | nil =>
    cases xs with
    | nil => have : head = 0 := h; rw [this]; norm_num
    | cons x xs => exact absurd h id
  | cons p ps =>
    cases xs with
    | nil => exact absurd h id
    | cons x xs => rw [h.1]; exact hn p (List.mem_cons_self _ _)

theorem storeBytes_outside (m : Memory) (p : Nat) (x : List Nat) (a : Nat)
    (h : a < p ∨ p + x.length ≤ a) : storeBytes m p x a = m a := by
  unfold storeBytes
  rw [if_neg (by omega)]

theorem push_ok {W : Type} (A : Allocator W) (L : NodeLayout) (I : W → List Nat → Prop)
    (hA : AllocatorOK A L I) (hL : L.OK) (s s₁ : StackAlloc W) (xs : List (List Nat))
    (x : List Nat) (h : StackOK A L I s xs) (hx : x.length = L.dataSize)
    (hp : StackAlloc.push A L x s = some s₁) :
    StackOK A L I s₁ (x :: xs) ∧
    readPtr (A.mem s₁.allocator_) (s₁.head_ + L.prevOffset) = s.head_ := by
  obtain ⟨nodes, hI, hrep⟩ := h
  obtain ⟨hmw, hheld, halloc, _, hstore⟩ := hA
  have hL1 := hL.1
  have hL2 := hL.2
  unfold ptrSize at hL2
  unfold StackAlloc.push at hp
  cases ha : A.allocate s.allocator_ with
  | none => simp only [ha] at hp; exact absurd hp (by simp)
  | some r =>
    obtain ⟨p, a₁⟩ := r
    simp only [ha, Option.some.injEq] at hp
    subst hp
    obtain ⟨hI₁, hframe⟩ := halloc _ nodes p a₁ hI ha
    obtain ⟨hpw, hel⟩ := hheld a₁ (p :: nodes) hI₁
    have hdisj := (List.pairwise_cons.1 hpw).1
    have hp0 := hel p (List.mem_cons_self _ _)
    have hhead : s.head_ < 2 ^ 64 := by
      refine rep_head_lt L hrep ?_
      intro q hq
      have := (hel q (List.mem_cons_of_mem _ hq)).2
      omega
    have hout : ∀ a, (a < p ∨ p + L.nodeSize ≤ a) →
        writePtr (storeBytes (storeBytes (A.mem a₁) p (List.replicate L.nodeSize 0)) p x)
          (p + L.prevOffset) s.head_ a = A.mem a₁ a := by
      intro a ha'
      rw [writePtr_outside _ _ _ _ (by omega), storeBytes_outside _ _ _ _ (by omega),
        storeBytes_outside _ _ _ _ (by rw [List.length_replicate]; omega)]
    have hI₂ := hstore a₁ (p :: nodes) _ hI₁
      (fun a ha' => hout a (ha' p (List.mem_cons_self _ _)))
    simp only [hmw]
    refine ⟨⟨p :: nodes, hI₂, ?_⟩, readPtr_writePtr_same _ _ _ hhead⟩
    rw [hmw]
    refine ⟨rfl, hp0.1, ?_, ?_⟩
    · rw [loadBytes_congr _
        (storeBytes (storeBytes (A.mem a₁) p (List.replicate L.nodeSize 0)) p x) p L.dataSize
        (fun a h1 h2 => writePtr_outside _ _ _ _ (by omega)), ← hx]
      exact loadBytes_storeBytes _ _ _
    · rw [readPtr_writePtr_same _ _ _ hhead]
      refine rep_congr L hL nodes xs _ hrep ?_
      intro q hq a h1 h2
      have := hdisj q hq
      rw [hout a (by omega)]
      exact hframe q hq a h1 h2

theorem pop_ok {W : Type} (A : Allocator W) (L : NodeLayout) (I : W → List Nat → Prop)
    (hA : AllocatorOK A L I) (hL : L.OK) (s : StackAlloc W) (xs : List (List Nat))
    (x : List Nat) (h : StackOK A L I s (x :: xs)) :
    (StackAlloc.pop A L s).1 = x ∧ StackOK A L I (StackAlloc.pop A L s).2 xs := by
  obtain ⟨nodes, hI, hrep⟩ := h
  obtain ⟨_, hheld, _, hdealloc, _⟩ := hA
  have hL2 := hL.2
  unfold ptrSize at hL2
  cases nodes with
  | nil => exact absurd hrep id
  | cons p ps =>
    obtain ⟨h1, h2, h3, h4⟩ := hrep
    obtain ⟨hpw, _⟩ := hheld _ _ hI
    have hdisj := (List.pairwise_cons.1 hpw).1
    obtain ⟨hI', hframe⟩ := hdealloc _ (p :: ps) p hI (List.mem_cons_self _ _)
    rw [List.erase_cons_head] at hI'
    unfold StackAlloc.pop
    simp only [h1]
    refine ⟨h3, ps, hI', ?_⟩
    refine rep_congr L hL ps xs _ h4 ?_
    intro q hq a ha1 ha2
    have := hdisj q hq
    exact hframe q (List.mem_cons_of_mem _ hq) (by omega) a ha1 ha2

theorem popN_ok {W : Type} (A : Allocator W) (L : NodeLayout) (I : W → List Nat → Prop)
    (hA : AllocatorOK A L I) (hL : L.OK) (xs : List (List Nat)) :
    ∀ s : StackAlloc W, StackOK A L I s xs →
      (StackAlloc.popN A L xs.length s).1 = xs ∧
      StackOK A L I (StackAlloc.popN A L xs.length s).2 [] := by
  induction xs with
  | nil => intro s h; exact ⟨rfl, h⟩
  | cons x xs ih =>
    intro s h
    obtain ⟨h1, h2⟩ := pop_ok A L I hA hL s xs x h
    obtain ⟨h3, h4⟩ := ih _ h2
    simp only [List.length_cons, StackAlloc.popN]
    exact ⟨by rw [h1, h3], h4⟩

theorem pushAll_ok {W : Type} (A : Allocator W) (L : NodeLayout) (I : W → List Nat → Prop)
    (hA : AllocatorOK A L I) (hL : L.OK) (xs : List (List Nat)) :
    ∀ (ys : List (List Nat)) (s sN : StackAlloc W), StackOK A L I s ys →
      (∀ x ∈ xs, x.length = L.dataSize) → StackAlloc.pushAll A L xs s = some sN →
      StackOK A L I sN (xs.reverse ++ ys) := by
  induction xs with
  | nil =>
    intro ys s sN h _ hp
    simp only [StackAlloc.pushAll, Option.some.injEq] at hp
    subst hp
    exact h
  | cons x xs ih =>
    intro ys s sN h hlen hp
    rw [StackAlloc.pushAll] at hp
    cases hpush : StackAlloc.push A L x s with
    | none => simp only [hpush] at hp; exact absurd hp (by simp)
    | some s' =>
      simp only [hpush] at hp
      have h' := (push_ok A L I hA hL s s' ys x h (hlen x (List.mem_cons_self _ _)) hpush).1
      have := ih (x :: ys) s' sN h' (fun y hy => hlen y (List.mem_cons_of_mem _ hy)) hp
      rw [List.reverse_cons, List.append_assoc]
      exact this

/-- C15. For every `StackAlloc` over an allocator that meets the allocator
contract, every stack state `s` holding the elements `xs` and every element
`x`: when `push(x)` does not throw, the following `pop()` returns `x`, restores
`head_`, and leaves the stack holding `xs` in the same order.  Consequently `n`
pushes of `x₁ … xₙ` onto an empty stack followed by `n` pops return
`xₙ, …, x₁` and leave `empty()` true. -/
theorem stack_push_pop {W : Type} (A : Allocator W) (L : NodeLayout)
    (I : W → List Nat → Prop) (hA : AllocatorOK A L I) (hL : L.OK) :
    (∀ (s s₁ : StackAlloc W) (xs : List (List Nat)) (x : List Nat),
      StackOK A L I s xs → x.length = L.dataSize → StackAlloc.push A L x s = some s₁ →
      (StackAlloc.pop A L s₁).1 = x ∧ (StackAlloc.pop A L s₁).2.head_ = s.head_ ∧
      StackOK A L I (StackAlloc.pop A L s₁).2 xs) ∧
    (∀ (a : W) (xs : List (List Nat)) (sN : StackAlloc W),
      I a [] → (∀ x ∈ xs, x.length = L.dataSize) →
      StackAlloc.pushAll A L xs ⟨a, 0⟩ = some sN →
      (StackAlloc.popN A L xs.length sN).1 = xs.reverse ∧
      (StackAlloc.popN A L xs.length sN).2.empty = true) := by
  constructor
  · intro s s₁ xs x h hx hp
    obtain ⟨h1, h2⟩ := push_ok A L I hA hL s s₁ xs x h hx hp
    obtain ⟨h3, h4⟩ := pop_ok A L I hA hL s₁ xs x h1
    exact ⟨h3, h2, h4⟩
  · intro a xs sN hI hlen hp
    have h0 : StackOK A L I (⟨a, 0⟩ : StackAlloc W) [] := ⟨[], hI, rfl⟩
    have h1 := pushAll_ok A L I hA hL xs [] _ sN h0 hlen hp
    rw [List.append_nil] at h1
    obtain ⟨h2, nodes, _, hrep⟩ := popN_ok A L I hA hL xs.reverse sN h1
    rw [List.length_reverse] at h2 hrep
    refine ⟨h2, ?_⟩
    cases nodes with
    | nil =>
      have : (StackAlloc.popN A L xs.length sN).2.head_ = 0 := hrep
      simp [StackAlloc.empty, this]
    | cons p ps => exact absurd hrep id

theorem inv_client_write (c : Config) (src : Nat → Option Nat) (henv : Env c src) (w : World)
    (live free : List Nat) (m' : Memory) (h : Inv c src w live free)
    (hm : ∀ x, (∀ q ∈ live, x < q ∨ q + c.slotSize ≤ x) → m' x = w.mem x) :
    Inv c src { w with mem := m' } live free := by
  obtain ⟨hch, hcur, hfree, hnd, hsl⟩ := h
  have hS : 8 ≤ c.slotSize := henv.2.1
  refine ⟨?_, hcur, ?_, hnd, hsl⟩
  · refine chainInv_mem_update c src w _ w.pool hch rfl ?_
    intro b hb x h1 h2
    apply hm
    intro q hq
    have := (isSlot_backlink c src henv w hch q (hsl q (List.mem_append_left _ hq))).2.2 b hb
    omega
  · refine Chain.congr _ _ hfree ?_
    intro q' hq'
    apply readPtr_congr
    intro x h1 h2
    apply hm
    intro q hq
    have hne : q ≠ q' := by
      intro e
      subst e
      exact (List.nodup_append.1 hnd).2.2 hq hq'
    have := isSlot_apart c src henv w hch q q' (hsl q (List.mem_append_left _ hq))
      (hsl q' (List.mem_append_right _ hq')) hne
    omega

theorem allocate_preserves_live (c : Config) (src : Nat → Option Nat) (henv : Env c src)
    (w : World) (live free : List Nat) (h : Inv c src w live free) :
    ∀ q ∈ live, ∀ x, q ≤ x → x < q + c.slotSize →
      (allocate c src w).world.mem x = w.mem x := by
  intro q hq x h1 h2
  rcases allocate_frame c src w with hsame | ⟨nb, hs, _, hframe⟩
  · rw [hsame]
  · apply hframe
    obtain ⟨b, hb, q1, q2, _, _⟩ := h.2.2.2.2 q (List.mem_append_left _ hq)
    have eb := env_sizes c src henv w h.1 b hb
    obtain ⟨k, hk, hsk⟩ := h.1.2.1 b hb
    have hap := henv.1.2 _ k nb b (by omega) hs hsk
    have hfit := henv.2.2 _ nb hs
    unfold Apart at hap
    unfold BlockFits ptrSize at hfit
    unfold ptrSize
    omega

theorem poolAllocator_ok (c : Config) (src : Nat → Option Nat) (L : NodeLayout)
    (henv : Env c src) (hsize : L.nodeSize = c.slotSize) :
    AllocatorOK (poolAllocator c src) L (PoolHolds c src) := by
  refine ⟨fun _ _ => rfl, ?_, ?_, ?_, ?_⟩
  · rintro w held ⟨free, h⟩
    rw [hsize]
    refine ⟨(List.pairwise_append.1 (inv_pairwise_apart c src henv w held free h)).1, ?_⟩
    intro p hp
    have := isSlot_backlink c src henv w h.1 p (h.2.2.2.2 p (List.mem_append_left _ hp))
    exact ⟨this.1, this.2.1⟩
  · rintro w held p w₁ ⟨free, h⟩ ha
    have hfr := allocate_preserves_live c src henv w held free h
    obtain ⟨free', hinv⟩ := inv_allocate c src henv w held free h
    unfold liveStep at hinv
    simp only [poolAllocator] at ha
    cases hal : allocate c src w with
    | threw w' => rw [hal] at ha; exact absurd ha (by simp)
    | ok p' w' =>
      rw [hal] at ha hinv hfr
      simp only [Option.some.injEq, Prod.mk.injEq] at ha
      obtain ⟨rfl, rfl⟩ := ha
      simp only [Result.world, Result.addr] at hinv hfr
      rw [hsize]
      exact ⟨⟨free', hinv⟩, hfr⟩
  · rintro w held p ⟨free, h⟩ hp
    refine ⟨⟨p :: free, inv_deallocate c src henv w held free p h hp⟩, ?_⟩
    intro q hq hne x h1 h2
    rw [hsize] at h2
    have hps := h.2.2.2.2 p (List.mem_append_left _ hp)
    have hqs := h.2.2.2.2 q (List.mem_append_left _ hq)
    have hp0 := (isSlot_backlink c src henv w h.1 p hps).1
    have hap := isSlot_apart c src henv w h.1 q p hqs hps hne
    have hS : 8 ≤ c.slotSize := henv.2.1
    simp only [poolAllocator, deallocate, if_pos hp0]
    exact writePtr_outside _ _ _ _ (by omega)
  · rintro w held m' ⟨free, h⟩ hm
    rw [hsize] at hm
    exact ⟨free, inv_client_write c src henv w held free m' h hm⟩

/-- Witness for C15: a `StackAlloc<int, MemoryPool>` on the scenario pool; the
pushes of `1` and `2` onto the empty stack succeed, and the two pops return `2`
and then `1` and leave the stack empty. -/
theorem stack_push_pop_witness :
    ∃ sN, StackAlloc.pushAll (poolAllocator scenarioCfg scenarioSrc) intNode
        [[1, 0, 0, 0], [2, 0, 0, 0]] ⟨World.fresh zeroMem, 0⟩ = some sN ∧
      (StackAlloc.popN (poolAllocator scenarioCfg scenarioSrc) intNode 2 sN).1
        = [[2, 0, 0, 0], [1, 0, 0, 0]] ∧
      (StackAlloc.popN (poolAllocator scenarioCfg scenarioSrc) intNode 2 sN).2.empty = true := by
  have h : ∃ sN, StackAlloc.pushAll (poolAllocator scenarioCfg scenarioSrc) intNode
      [[1, 0, 0, 0], [2, 0, 0, 0]] ⟨World.fresh zeroMem, 0⟩ = some sN := by
    simp [StackAlloc.pushAll, StackAlloc.push, poolAllocator, allocate, allocateBlock,
      allocateBlockAt, carve, scenarioCfg, scenarioSrc, World.fresh, Pool.fresh,
      padPointer_eval, ptrSize]
  obtain ⟨sN, hsN⟩ := h
  exact ⟨sN, hsN,
    (stack_push_pop (poolAllocator scenarioCfg scenarioSrc) intNode
      (PoolHolds scenarioCfg scenarioSrc)
      (poolAllocator_ok scenarioCfg scenarioSrc intNode scenario_env rfl)
      ⟨by decide, by decide⟩).2 (World.fresh zeroMem) [[1, 0, 0, 0], [2, 0, 0, 0]] sN
      ⟨[], inv_fresh scenarioCfg scenarioSrc zeroMem⟩ (by decide) hsN⟩

end MemoryPool
